import Mathlib

/-! The hash-linked ledger of `teste.c`.

A shallow embedding of the ledger engine of `src/teste.c`: block digests,
Merkle aggregation, proof-of-work sealing, appending and chain validation.

Conventions of the embedding.

* A C string is the list of its characters, the terminating NUL left out.
* `SHA256` (OpenSSL) is not code of the repository: every function that calls
  it takes the digest function as its first argument, from the hashed text to
  the bytes written to the digest array.
* `time(NULL)` is the argument `now`; the content of memory that is read
  before it is written is the argument `uninit`.
* The linked list `Block *` is a `List Block`, the `next` pointers being the
  list order.
* An unbounded loop takes the number of iterations it may run (`fuel`) and
  gives `none` when that is not enough; signed overflow and a null
  dereference are undefined and give `none` as well.
-/

namespace Teste

/-- The characters of a NUL-terminated C string, in order, without the NUL. -/
abbrev CString := List Char

/-- Largest value of the C type `int` (32 bits). -/
def INT_MAX : Int := 2147483647

/-- Largest value of the C type `long` (64 bits), the type of `time_t`. -/
def LONG_MAX : Int := 9223372036854775807

/-- Number of bytes of a SHA-256 digest (`openssl/sha.h`). -/
def SHA256_DIGEST_LENGTH : Nat := 32

/-- The record `struct Block` of the source, the `next` pointer left to the list. -/
structure Block where
  index : Int
  previous_hash : CString
  merkle_root : CString
  data : CString
  hash : CString
  nonce : Int
  timestamp : Int
deriving DecidableEq

/-- Text of the conversions `%d` and `%ld`: decimal, with a sign when negative. -/
def fmt_d (i : Int) : CString :=
  if i < 0 then '-' :: Nat.toDigits 10 i.natAbs else Nat.toDigits 10 i.toNat

/-- Text of the conversion `%02x` applied to a byte (`unsigned char`). -/
def fmt_02x (byte : Nat) : CString :=
  [Nat.digitChar (byte / 16 % 16), Nat.digitChar (byte % 16)]

/-- Result of `snprintf(buf, size, ...)`: the formatted text cut to `size - 1` characters. -/
def snprintf (size : Nat) (text : CString) : CString :=
  text.take (size - 1)

/-- Result of `strncpy(dest, src, n)` read back as a string. -/
def strncpy (src : CString) (n : Nat) : CString :=
  src.take n

/-- Sign of `strncmp(a, b, n)`: at most `n` characters are compared, the end of
a string counting as the NUL character. -/
def strncmp : CString → CString → Nat → Int
  | _, _, 0 => 0
  | [], [], _ + 1 => 0
  | [], _ :: _, _ + 1 => -1
  | _ :: _, [], _ + 1 => 1
  | a :: as, b :: bs, n + 1 =>
    if a = b then strncmp as bs n else if a < b then -1 else 1

/-- The loop of `calculate_hash` and `calculate_transaction_hash` that writes
the `SHA256_DIGEST_LENGTH` bytes of the digest array as two hex digits each. -/
def hex_digest (hash : List Nat) : CString :=
  (List.range SHA256_DIGEST_LENGTH).flatMap fun i => fmt_02x (hash.getD i 0)

/-- Function `calculate_hash`: hex digest of the text of the block's fields. -/
def calculate_hash (SHA256 : CString → List Nat) (block : Block) : CString :=
  let input := snprintf 512
    (fmt_d block.index ++ block.previous_hash ++ block.data ++ fmt_d block.nonce
      ++ fmt_d block.timestamp ++ block.merkle_root)
  hex_digest (SHA256 input)

/-- Function `calculate_transaction_hash`: hex digest of a text. -/
def calculate_transaction_hash (SHA256 : CString → List Nat) (data : CString) : CString :=
  hex_digest (SHA256 data)

/-- The inner `for (i = 0; i < num_transactions; i += 2)` loop of
`build_merkle_tree`, from the state `(i, j, hashes)`; `steps` bounds the
iterations. Gives the final `j` and the array, overwritten in place. -/
def merkle_for (SHA256 : CString → List Nat) (num_transactions : Nat) :
    Nat → Nat → Nat → List CString → Nat × List CString
  | 0, _, j, hashes => (j, hashes)
  | steps + 1, i, j, hashes =>
    if i < num_transactions then
      if i + 1 < num_transactions then
        let combined := snprintf 512 (hashes.getD i [] ++ hashes.getD (i + 1) [])
        merkle_for SHA256 num_transactions steps (i + 2) (j + 1)
          (hashes.set j (calculate_transaction_hash SHA256 combined))
      else
        merkle_for SHA256 num_transactions steps (i + 2) (j + 1)
          (hashes.set j (hashes.getD i []))
    else (j, hashes)

/-- The `while (num_transactions > 1)` loop of `build_merkle_tree`; every pass
at least halves `num_transactions`, which bounds the passes by `fuel`. -/
def merkle_while (SHA256 : CString → List Nat) : Nat → Nat → List CString → List CString
  | 0, _, hashes => hashes
  | fuel + 1, num_transactions, hashes =>
    if num_transactions > 1 then
      let r := merkle_for SHA256 num_transactions num_transactions 0 0 hashes
      merkle_while SHA256 fuel r.1 r.2
    else hashes

/-- Function `build_merkle_tree`: the array `hashes` is filled with the digests
of the transactions and reduced in place; the root is `hashes[0]`, which with
no transaction is memory that was never written (`uninit`). -/
def build_merkle_tree (SHA256 : CString → List Nat) (uninit : CString)
    (transactions : List CString) : CString :=
  let hashes := transactions.map (calculate_transaction_hash SHA256)
  (merkle_while SHA256 transactions.length transactions.length hashes).getD 0 uninit

/-- Function `proof_of_work`: the `do ... while` loop, run for at most `fuel`
attempts. `nonce++` at `INT_MAX` is a signed overflow. -/
def proof_of_work (SHA256 : CString → List Nat) (difficulty : Nat) : Nat → Block → Option Block
  | 0, _ => none
  | fuel + 1, block =>
    if block.nonce < INT_MAX then
      let block := { block with nonce := block.nonce + 1 }
      let block := { block with hash := calculate_hash SHA256 block }
      if strncmp block.hash (List.replicate difficulty '0') difficulty ≠ 0 then
        proof_of_work SHA256 difficulty fuel block
      else some block
    else none

/-- The label `create_block` writes to the field `data`. -/
def data_label : CString := "Transações".toList

/-- Function `create_block`. `data` stands for the rows `build_merkle_tree`
reads and `num_transactions` is their number. The field `hash` is not
initialised; the first attempt of `proof_of_work` writes it. -/
def create_block (SHA256 : CString → List Nat) (uninit : CString) (now : Int) (fuel : Nat)
    (index : Int) (previous_hash : CString) (data : List CString) (difficulty : Nat) :
    Option Block :=
  proof_of_work SHA256 difficulty fuel
    { index := index
      previous_hash := strncpy previous_hash 65
      merkle_root := build_merkle_tree SHA256 uninit data
      data := snprintf 256 data_label
      hash := []
      nonce := 0
      timestamp := now }

/-- Function `create_genesis_block`. -/
def create_genesis_block (SHA256 : CString → List Nat) (uninit : CString) (now : Int)
    (fuel : Nat) (difficulty : Nat) : Option Block :=
  create_block SHA256 uninit now fuel 0 "0".toList [] difficulty

/-- Function `add_block`: walks to the last block and links a new block after
it. An empty chain is a null dereference, `last_block->index + 1` at `INT_MAX`
a signed overflow. -/
def add_block (SHA256 : CString → List Nat) (uninit : CString) (now : Int) (fuel : Nat)
    (blockchain : List Block) (data : List CString) (difficulty : Nat) :
    Option (List Block) :=
  match blockchain.getLast? with
  | none => none
  | some last_block =>
    if last_block.index < INT_MAX then
      (create_block SHA256 uninit now fuel (last_block.index + 1) last_block.hash data
        difficulty).map fun new_block => blockchain ++ [new_block]
    else none

/-- What `validar` prints, which fixes the value it returns. -/
inductive Report where
  /-- "Blockchain está vazia!" -/
  | empty
  /-- "O hash anterior do bloco gênesis está incorreto." -/
  | genesis_previous_hash
  /-- "A cadeia está corrompida entre os blocos %d e %d." -/
  | corrupted (current next : Int)
  /-- "O hash do bloco %d está incorreto." -/
  | wrong_hash (index : Int)
  /-- "Blockchain válida!" -/
  | valid
deriving DecidableEq

/-- The `int` that `validar` returns with each report. -/
def Report.ret : Report → Int
  | .valid => 1
  | _ => 0

/-- The `while (current != NULL && current->next != NULL)` loop of `validar`. -/
def validar_while (SHA256 : CString → List Nat) : List Block → Report
  | current :: next :: rest =>
    if strncmp current.hash next.previous_hash 64 ≠ 0 then
      .corrupted current.index next.index
    else if strncmp current.hash (calculate_hash SHA256 current) 64 ≠ 0 then
      .wrong_hash current.index
    else validar_while SHA256 (next :: rest)
  | _ => .valid

/-- Function `validar`. -/
def validar (SHA256 : CString → List Nat) : List Block → Report
  | [] => .empty
  | current :: rest =>
    if strncmp current.previous_hash "0".toList 64 ≠ 0 then .genesis_previous_hash
    else validar_while SHA256 (current :: rest)

/-- One `add_block` call of a run: its transactions and what it reads from the
environment. -/
structure Append where
  data : List CString
  now : Int
  uninit : CString
  fuel : Nat

/-- The chain after the `add_block` calls `calls`, in order, on `blockchain`. -/
def add_blocks (SHA256 : CString → List Nat) (difficulty : Nat) :
    List Append → List Block → Option (List Block)
  | [], blockchain => some blockchain
  | c :: calls, blockchain =>
    (add_block SHA256 c.uninit c.now c.fuel blockchain c.data difficulty).bind
      (add_blocks SHA256 difficulty calls)

/-- A freshly built ledger: `create_genesis_block` followed by the `add_block`
calls `calls`, all at one difficulty, as `main` runs them. -/
def build_ledger (SHA256 : CString → List Nat) (difficulty : Nat) (uninit : CString)
    (now : Int) (fuel : Nat) (calls : List Append) : Option (List Block) :=
  (create_genesis_block SHA256 uninit now fuel difficulty).bind fun genesis =>
    add_blocks SHA256 difficulty calls [genesis]

/-- What one round of the menu loop of `main` prints after the menu. -/
inductive Output where
  /-- "Bloco gênesis criado com sucesso!" -/
  | genesis_created
  /-- "Bloco gênesis já existe!" -/
  | genesis_exists
  /-- "Novo bloco adicionado com sucesso!" -/
  | block_added
  /-- "O bloco gênesis deve ser criado primeiro!" -/
  | genesis_first
  /-- The blocks `print_blockchain` lists. -/
  | printed (blocks : List Block)
  /-- "Nenhuma blockchain foi criada ainda." -/
  | nothing_created
  /-- "Saindo..." -/
  | leaving
  /-- What `validar` reports. -/
  | validated (report : Report)
  /-- "Blockchain está vazia!" -/
  | empty_chain
  /-- "Opção inválida! Tente novamente." -/
  | invalid_option
deriving DecidableEq

/-- One round of the menu loop of `main`: the option read by `scanf` and what
the round reads from the environment; `row0` and `row1` are the two rows
`build_merkle_tree` reads for the `num_transactions = 2` transactions. -/
structure Round where
  option : Int
  now : Int
  uninit : CString
  fuel : Nat
  row0 : CString
  row1 : CString

/-- The `switch (option)` of `main` on the chain `blockchain` (`NULL` is `[]`),
with `difficulty = 2`: the chain after the round and what is printed. -/
def main_switch (SHA256 : CString → List Nat) (r : Round) (blockchain : List Block) :
    Option (List Block × Output) :=
  if r.option = 1 then
    if blockchain = [] then
      (create_genesis_block SHA256 r.uninit r.now r.fuel 2).map fun genesis =>
        ([genesis], Output.genesis_created)
    else some (blockchain, Output.genesis_exists)
  else if r.option = 2 then
    if blockchain ≠ [] then
      (add_block SHA256 r.uninit r.now r.fuel blockchain [r.row0, r.row1] 2).map fun chain =>
        (chain, Output.block_added)
    else some (blockchain, Output.genesis_first)
  else if r.option = 3 then
    if blockchain ≠ [] then some (blockchain, Output.printed blockchain)
    else some (blockchain, Output.nothing_created)
  else if r.option = 4 then some (blockchain, Output.leaving)
  else if r.option = 5 then
    if blockchain ≠ [] then some (blockchain, Output.validated (validar SHA256 blockchain))
    else some (blockchain, Output.empty_chain)
  else some (blockchain, Output.invalid_option)

/-- The `do ... while (option != 4)` loop of `main` run for the rounds `rounds`:
the chain after the last of them, or after the round with option 4 that ends
the loop. -/
def main_loop (SHA256 : CString → List Nat) : List Round → List Block → Option (List Block)
  | [], blockchain => some blockchain
  | r :: rounds, blockchain =>
    match main_switch SHA256 r blockchain with
    | none => none
    | some (chain, _) => if r.option ≠ 4 then main_loop SHA256 rounds chain else some chain

/-- Reference reduction of the specification, one level: adjacent pairs are
combined left to right, an unpaired last element is carried forward unchanged. -/
def reference_level (combine : CString → CString → CString) : List CString → List CString
  | left :: right :: rest => combine left right :: reference_level combine rest
  | rest => rest

/-- Reference reduction of the specification: levels are reduced until one
digest remains. -/
def reference_reduce (combine : CString → CString → CString) (level : List CString) :
    List CString :=
  if 1 < level.length then reference_reduce combine (reference_level combine level) else level
termination_by level.length
decreasing_by
  have shrink : ∀ (n : Nat) (l : List CString), l.length ≤ n →
      (reference_level combine l).length = (l.length + 1) / 2 := by
    intro n
    induction n with
    | zero => intro l hl; cases l <;> simp_all [reference_level]
    | succ n ih =>
      intro l hl
      rcases l with _ | ⟨a, _ | ⟨b, rest⟩⟩
      · rfl
      · simp [reference_level]
      · have := ih rest (by simp at hl; omega)
        simp only [reference_level, List.length_cons, this]
        omega
  rw [shrink _ level le_rfl]
  omega

/-- Reference Merkle root of the specification: the digests of the transactions
in order, reduced with `digest(left ++ right)`; no root without a transaction. -/
def reference_merkle_root (SHA256 : CString → List Nat) (transactions : List CString) :
    Option CString :=
  (reference_reduce (fun left right => calculate_transaction_hash SHA256 (left ++ right))
    (transactions.map (calculate_transaction_hash SHA256))).head?

/-- Invariant of the build operations: the first block carries the sentinel,
every stored hash is the recomputed one, every block names the hash of the
block before it, and the block at position `k` has index `k`. -/
structure WellBuilt (SHA256 : CString → List Nat) (chain : List Block) : Prop where
  genesis : ∃ first, chain[0]? = some first ∧ first.previous_hash = "0".toList
  sealed : ∀ b ∈ chain, b.hash = calculate_hash SHA256 b
  linked : ∀ (k : Nat) (current next : Block),
    chain[k]? = some current → chain[k + 1]? = some next → next.previous_hash = current.hash
  indexed : ∀ (k : Nat) (b : Block), chain[k]? = some b → b.index = k

/-- A sample digest function for concrete runs: two bytes fixed by the sum of
the character codes of the text, the first a multiple of 51 (later bytes read 0). -/
def sample_digest (text : CString) : List Nat :=
  [(text.map Char.toNat).sum % 5 * 51, (text.map Char.toNat).sum % 256]

/-- The `add_block` calls of the sample run: transactions `a`, `b`, then `c`. -/
def sample_calls : List Append :=
  [{ data := ["a".toList, "b".toList], now := 1700000005, uninit := [], fuel := 10 },
   { data := ["c".toList], now := 1700000009, uninit := [], fuel := 10 }]

/-- Genesis block of the sample run (difficulty 2, `sample_digest`). -/
def sample_genesis : Block :=
  { index := 0, previous_hash := "0".toList, merkle_root := [], data := data_label,
    hash := "0099".toList ++ List.replicate 60 '0', nonce := 4, timestamp := 1700000000 }

/-- First appended block of the sample run. -/
def sample_block_1 : Block :=
  { index := 1, previous_hash := "0099".toList ++ List.replicate 60 '0',
    merkle_root := "cc2d".toList ++ List.replicate 60 '0', data := data_label,
    hash := "001c".toList ++ List.replicate 60 '0', nonce := 3, timestamp := 1700000005 }

/-- Second appended block of the sample run. -/
def sample_block_2 : Block :=
  { index := 2, previous_hash := "001c".toList ++ List.replicate 60 '0',
    merkle_root := "cc63".toList ++ List.replicate 60 '0', data := data_label,
    hash := "0017".toList ++ List.replicate 60 '0', nonce := 4, timestamp := 1700000009 }

/-! ## Strings and digests -/

theorem strncmp_eq_zero_iff (a b : CString) (n : Nat) :
    strncmp a b n = 0 ↔ a.take n = b.take n := by
  induction n generalizing a b with
  | zero => simp [strncmp]
  | succ n ih =>
    cases a with
    | nil => cases b <;> simp [strncmp]
    | cons x xs =>
      cases b with
      | nil => simp [strncmp]
      | cons y ys =>
        by_cases hxy : x = y
        · simp [strncmp, hxy, ih]
        · by_cases hlt : x < y <;> simp [strncmp, hxy, hlt]

theorem strncmp_self (a : CString) (n : Nat) : strncmp a a n = 0 :=
  (strncmp_eq_zero_iff a a n).2 rfl

theorem hex_digest_length (hash : List Nat) : (hex_digest hash).length = 64 := by
  simp [hex_digest, SHA256_DIGEST_LENGTH, fmt_02x, List.length_flatMap, Function.comp_def]

theorem calculate_hash_length (SHA256 : CString → List Nat) (block : Block) :
    (calculate_hash SHA256 block).length = 64 :=
  hex_digest_length _

theorem calculate_transaction_hash_length (SHA256 : CString → List Nat) (data : CString) :
    (calculate_transaction_hash SHA256 data).length = 64 :=
  hex_digest_length _

/-- The stored hash is not part of the text `calculate_hash` digests. -/
theorem calculate_hash_congr (SHA256 : CString → List Nat) (a b : Block)
    (hi : a.index = b.index) (hp : a.previous_hash = b.previous_hash) (hd : a.data = b.data)
    (hn : a.nonce = b.nonce) (ht : a.timestamp = b.timestamp)
    (hm : a.merkle_root = b.merkle_root) :
    calculate_hash SHA256 a = calculate_hash SHA256 b := by
  simp [calculate_hash, hi, hp, hd, hn, ht, hm]

/-! ## Proof of work -/

/-- What a terminated `proof_of_work` leaves in the block. -/
theorem proof_of_work_some (SHA256 : CString → List Nat) (difficulty : Nat) :
    ∀ (fuel : Nat) (block sealed : Block),
      proof_of_work SHA256 difficulty fuel block = some sealed →
      sealed.hash = calculate_hash SHA256 sealed ∧
      strncmp sealed.hash (List.replicate difficulty '0') difficulty = 0 ∧
      sealed.index = block.index ∧ sealed.previous_hash = block.previous_hash ∧
      sealed.merkle_root = block.merkle_root ∧ sealed.data = block.data ∧
      sealed.timestamp = block.timestamp ∧
      block.nonce < sealed.nonce ∧ sealed.nonce ≤ INT_MAX := by
  intro fuel
  induction fuel with
  | zero => intro block sealed h; simp [proof_of_work] at h
  | succ fuel ih =>
    intro block sealed h
    rw [proof_of_work] at h
    dsimp only at h
    split_ifs at h with hlt hne
    · obtain ⟨h1, h2, h3, h4, h5, h6, h7, h8, h9⟩ := ih _ _ h
      simp only at h3 h4 h5 h6 h7 h8
      exact ⟨h1, h2, h3, h4, h5, h6, h7, by omega, h9⟩
    · injection h with h
      subst h
      refine ⟨?_, ?_, rfl, rfl, rfl, rfl, rfl, ?_, ?_⟩
      · exact calculate_hash_congr _ _ _ rfl rfl rfl rfl rfl rfl
      · simpa using hne
      · simp
      · simp only; omega

/-! ## Merkle aggregation -/

theorem reference_level_length (combine : CString → CString → CString)
    (level : List CString) :
    (reference_level combine level).length = (level.length + 1) / 2 := by
  induction level using reference_level.induct combine with
  | case1 left right rest ih =>
    simp only [reference_level, List.length_cons, ih]
    omega
  | case2 rest h =>
    rcases rest with _ | ⟨a, _ | ⟨b, rest⟩⟩
    · rfl
    · simp [reference_level]
    · exact absurd rfl (h a b rest)

theorem take_succ_set {α : Type} (l : List α) (j : Nat) (d : α) (h : j < l.length) :
    (l.set j d).take (j + 1) = l.take j ++ [d] := by
  rw [List.take_succ, List.set_take, List.getElem?_set_self h]
  congr 1
  apply List.ext_getElem? 
  intro i
  by_cases hi : i < j
  · rw [List.getElem?_set_ne (by omega)]
  · simp [List.getElem?_take, hi]
    left; omega

theorem take_drop_two {α : Type} (l : List α) (n k : Nat) (d : α) (h : k + 1 < n)
    (hn : n ≤ l.length) :
    (l.take n).drop k = l.getD k d :: l.getD (k + 1) d :: (l.take n).drop (k + 2) := by
  have h1 : k < (l.take n).length := by simp; omega
  have h2 : k + 1 < (l.take n).length := by simp; omega
  rw [List.drop_eq_getElem_cons h1, List.drop_eq_getElem_cons h2]
  simp [List.getElem_take, List.getD_eq_getElem, show k < l.length by omega, show k + 1 < l.length by omega]

theorem take_drop_one {α : Type} (l : List α) (n k : Nat) (d : α) (h : k + 1 = n)
    (hn : n ≤ l.length) :
    (l.take n).drop k = [l.getD k d] := by
  have h1 : k < (l.take n).length := by simp; omega
  rw [List.drop_eq_getElem_cons h1, List.drop_eq_nil_of_le (by simp; omega)]
  simp [List.getElem_take, List.getD_eq_getElem, show k < l.length by omega]

theorem take_drop_set {α : Type} (l : List α) (n j k : Nat) (d : α) (h : j < k) :
    ((l.set j d).take n).drop k = (l.take n).drop k := by
  rw [List.set_take, List.drop_set_of_lt _ _ h]

/-- One pass of the inner loop from the state `(2 * j, j, hashes)`: the first
`j` entries are kept and followed by the reduced rest of the level. -/
theorem merkle_for_spec (SHA256 : CString → List Nat) (n : Nat) :
    ∀ (steps j : Nat) (hashes : List CString),
      n ≤ hashes.length → 2 * j ≤ n + 1 → n ≤ 2 * j + 2 * steps →
      (merkle_for SHA256 n steps (2 * j) j hashes).1 = (n + 1) / 2 ∧
      (merkle_for SHA256 n steps (2 * j) j hashes).2.length = hashes.length ∧
      (merkle_for SHA256 n steps (2 * j) j hashes).2.take ((n + 1) / 2) =
        hashes.take j ++
          reference_level
            (fun left right => calculate_transaction_hash SHA256 (snprintf 512 (left ++ right)))
            ((hashes.take n).drop (2 * j)) := by
  intro steps
  induction steps with
  | zero =>
    intro j hashes hlen hj hsteps
    have hdrop : (hashes.take n).drop (2 * j) = [] := by
      apply List.drop_eq_nil_of_le; simp; omega
    have hjn : (n + 1) / 2 = j := by omega
    simp [merkle_for, hdrop, reference_level, hjn]
  | succ steps ih =>
    intro j hashes hlen hj hsteps
    rw [merkle_for]
    split_ifs with h1 h2
    · -- a pair `hashes[2j]`, `hashes[2j+1]` is combined into `hashes[j]`
      have hstep := ih (j + 1)
        (hashes.set j (calculate_transaction_hash SHA256
          (snprintf 512 (hashes.getD (2 * j) [] ++ hashes.getD (2 * j + 1) []))))
        (by simpa using hlen) (by omega) (by omega)
      rw [show 2 * (j + 1) = 2 * j + 2 by ring] at hstep
      obtain ⟨e1, e2, e3⟩ := hstep
      refine ⟨e1, by simpa using e2, ?_⟩
      rw [e3, take_succ_set _ _ _ (by omega), take_drop_set _ _ _ _ _ (by omega),
        take_drop_two hashes n (2 * j) [] h2 hlen]
      simp [reference_level]
    · -- the unpaired last element `hashes[2j]` is copied to `hashes[j]`
      have hstep := ih (j + 1) (hashes.set j (hashes.getD (2 * j) []))
        (by simpa using hlen) (by omega) (by omega)
      rw [show 2 * (j + 1) = 2 * j + 2 by ring] at hstep
      obtain ⟨e1, e2, e3⟩ := hstep
      refine ⟨e1, by simpa using e2, ?_⟩
      rw [e3, take_succ_set _ _ _ (by omega), take_drop_set _ _ _ _ _ (by omega),
        take_drop_one hashes n (2 * j) [] (by omega) hlen,
        List.drop_eq_nil_of_le (by simp; omega)]
      simp [reference_level]
    · have hdrop : (hashes.take n).drop (2 * j) = [] := by
        apply List.drop_eq_nil_of_le; simp; omega
      have hjn : (n + 1) / 2 = j := by omega
      simp [hdrop, reference_level, hjn]

/-- The outer loop leaves in `hashes[0]` the head of the reference reduction of
the first `n` entries, with the combination step of the source. -/
theorem merkle_while_spec (SHA256 : CString → List Nat) (uninit : CString) :
    ∀ (fuel n : Nat) (hashes : List CString),
      1 ≤ n → n ≤ hashes.length → n ≤ fuel →
      (reference_reduce
          (fun left right => calculate_transaction_hash SHA256 (snprintf 512 (left ++ right)))
          (hashes.take n)).head? =
        some ((merkle_while SHA256 fuel n hashes).getD 0 uninit) := by
  intro fuel
  induction fuel with
  | zero => intro n hashes h1 _ h0; omega
  | succ fuel ih =>
    intro n hashes h1 hlen hfuel
    rw [merkle_while]
    split_ifs with hn
    · obtain ⟨e1, e2, e3⟩ := merkle_for_spec SHA256 n n 0 hashes hlen (by omega) (by omega)
      simp only [Nat.mul_zero, List.take_zero, List.nil_append, List.drop_zero] at e1 e2 e3
      have hrec := ih (merkle_for SHA256 n n 0 0 hashes).1 (merkle_for SHA256 n n 0 0 hashes).2
        (by omega) (by omega) (by omega)
      rw [← hrec, e1, e3]
      conv_lhs => rw [reference_reduce]
      rw [if_pos (by simp; omega)]
    · have hn1 : n = 1 := by omega
      subst hn1
      rw [reference_reduce, if_neg (by simp)]
      cases hashes with
      | nil => simp at hlen
      | cons x xs => simp

theorem reference_level_congr (f g : CString → CString → CString) (P : CString → Prop)
    (hfg : ∀ a b, P a → P b → f a b = g a b) (hP : ∀ a b, P (g a b)) :
    ∀ level : List CString, (∀ x ∈ level, P x) →
      reference_level f level = reference_level g level ∧
      ∀ x ∈ reference_level g level, P x
  | [], _ => by simp [reference_level]
  | [a], h => by simpa [reference_level] using h
  | a :: b :: rest, h => by
    have ha : P a := h a (by simp)
    have hb : P b := h b (by simp)
    obtain ⟨e, hall⟩ := reference_level_congr f g P hfg hP rest
      (fun x hx => h x (by simp [hx]))
    refine ⟨by simp [reference_level, hfg a b ha hb, e], ?_⟩
    intro x hx
    simp only [reference_level, List.mem_cons] at hx
    rcases hx with rfl | hx
    · exact hP a b
    · exact hall x hx

theorem reference_reduce_eq (combine : CString → CString → CString) (level : List CString) :
    reference_reduce combine level =
      if 1 < level.length then reference_reduce combine (reference_level combine level)
      else level := by
  rw [reference_reduce]

theorem reference_reduce_congr (f g : CString → CString → CString) (P : CString → Prop)
    (hfg : ∀ a b, P a → P b → f a b = g a b) (hP : ∀ a b, P (g a b)) :
    ∀ (n : Nat) (level : List CString), level.length ≤ n → (∀ x ∈ level, P x) →
      reference_reduce f level = reference_reduce g level := by
  intro n
  induction n with
  | zero =>
    intro level hlen _
    rw [reference_reduce_eq f, reference_reduce_eq g, if_neg (by omega), if_neg (by omega)]
  | succ n ih =>
    intro level hlen hall
    rw [reference_reduce_eq f, reference_reduce_eq g]
    split_ifs with h
    · obtain ⟨e, hall'⟩ := reference_level_congr f g P hfg hP level hall
      rw [e]
      refine ih _ ?_ hall'
      rw [reference_level_length]
      omega
    · rfl

theorem reference_reduce_forall (g : CString → CString → CString) (P : CString → Prop)
    (hP : ∀ a b, P (g a b)) :
    ∀ (n : Nat) (level : List CString), level.length ≤ n → (∀ x ∈ level, P x) →
      ∀ x ∈ reference_reduce g level, P x := by
  intro n
  induction n with
  | zero =>
    intro level hlen hall
    rw [reference_reduce_eq, if_neg (by omega)]
    exact hall
  | succ n ih =>
    intro level hlen hall
    rw [reference_reduce_eq]
    split_ifs with h
    · refine ih _ ?_ (reference_level_congr g g P (fun _ _ _ _ => rfl) hP level hall).2
      rw [reference_level_length]
      omega
    · exact hall

/-- On digests the combination step of the source, which cuts the joined text
to the 511 characters of its buffer, is the `digest(left ++ right)` of the
specification. -/
theorem build_merkle_tree_eq_reference (SHA256 : CString → List Nat) (uninit : CString)
    (transactions : List CString) (h : transactions ≠ []) :
    reference_merkle_root SHA256 transactions =
      some (build_merkle_tree SHA256 uninit transactions) := by
  have hpos : 1 ≤ transactions.length := List.length_pos.2 h
  have hw := merkle_while_spec SHA256 uninit transactions.length transactions.length
    (transactions.map (calculate_transaction_hash SHA256)) hpos (by simp) le_rfl
  rw [build_merkle_tree, ← hw, reference_merkle_root]
  rw [List.take_of_length_le (by simp)]
  congr 1
  refine (reference_reduce_congr _ _ (fun x => x.length = 64) ?_ ?_ _ _ le_rfl ?_).symm
  · intro a b ha hb
    simp only [snprintf]
    rw [List.take_of_length_le (by simp [ha, hb])]
  · intro a b
    exact calculate_transaction_hash_length _ _
  · intro x hx
    obtain ⟨t, _, rfl⟩ := List.mem_map.1 hx
    exact calculate_transaction_hash_length _ _

theorem build_merkle_tree_length (SHA256 : CString → List Nat) (uninit : CString)
    (transactions : List CString) (h : transactions ≠ []) :
    (build_merkle_tree SHA256 uninit transactions).length = 64 := by
  have hroot := build_merkle_tree_eq_reference SHA256 uninit transactions h
  rw [reference_merkle_root] at hroot
  refine reference_reduce_forall _ (fun x => x.length = 64)
    (fun a b => calculate_transaction_hash_length SHA256 (a ++ b)) _ _ le_rfl ?_ _
    (List.mem_of_mem_head? hroot)
  intro x hx
  obtain ⟨t, _, rfl⟩ := List.mem_map.1 hx
  exact calculate_transaction_hash_length _ _

/-- C7. Merkle reduction matches the specified algorithm: for every non-empty
list of transactions `build_merkle_tree`, which overwrites its array in place,
returns the root of the reference reduction (hash each transaction in order,
combine adjacent pairs left to right with `digest(left ++ right)`, carry an
unpaired last element forward, until one digest remains); for three
transactions the root is `digest(digest(d1 ++ d2) ++ d3)`. -/
theorem build_merkle_tree_refines_reference (SHA256 : CString → List Nat) (uninit : CString)
    (transactions : List CString) (h : transactions ≠ []) :
    reference_merkle_root SHA256 transactions =
        some (build_merkle_tree SHA256 uninit transactions) ∧
      ∀ t1 t2 t3 : CString, transactions = [t1, t2, t3] →
        build_merkle_tree SHA256 uninit transactions =
          calculate_transaction_hash SHA256
            (calculate_transaction_hash SHA256
                (calculate_transaction_hash SHA256 t1 ++ calculate_transaction_hash SHA256 t2)
              ++ calculate_transaction_hash SHA256 t3) := by
  have hroot := build_merkle_tree_eq_reference SHA256 uninit transactions h
  refine ⟨hroot, ?_⟩
  rintro t1 t2 t3 rfl
  have hval : reference_merkle_root SHA256 [t1, t2, t3] =
      some (calculate_transaction_hash SHA256
        (calculate_transaction_hash SHA256
            (calculate_transaction_hash SHA256 t1 ++ calculate_transaction_hash SHA256 t2)
          ++ calculate_transaction_hash SHA256 t3)) := by
    simp [reference_merkle_root, reference_reduce_eq, reference_level]
  exact Option.some.inj (hroot.symm.trans hval)

theorem build_merkle_tree_refines_reference_witness :
    ["a".toList, "b".toList, "c".toList] ≠ [] ∧
    reference_merkle_root sample_digest ["a".toList, "b".toList, "c".toList] =
      some (build_merkle_tree sample_digest [] ["a".toList, "b".toList, "c".toList]) ∧
    build_merkle_tree sample_digest [] ["a".toList, "b".toList, "c".toList] =
      "330b".toList ++ List.replicate 60 '0' :=
  ⟨by decide,
    (build_merkle_tree_refines_reference sample_digest []
      ["a".toList, "b".toList, "c".toList] (by decide)).1,
    by decide!⟩

/-- C8. Merkle single-leaf identity: on a one-element list `build_merkle_tree`
returns the digest of that transaction. -/
theorem build_merkle_tree_single (SHA256 : CString → List Nat) (uninit : CString)
    (t : CString) :
    build_merkle_tree SHA256 uninit [t] = calculate_transaction_hash SHA256 t := by
  simp [build_merkle_tree, merkle_while]

/-! ## Block construction -/

theorem fmt_d_length (i : Int) (e : Nat) (he : 0 < e) (h : i.natAbs < 10 ^ e) :
    (fmt_d i).length ≤ e + 1 := by
  unfold fmt_d
  split_ifs with hneg
  · have := Nat.toDigitsCore_length 10 (by decide) (i.natAbs + 1) i.natAbs e h he
    simpa [Nat.toDigits] using this
  · have hlt : i.toNat < 10 ^ e := by omega
    have := Nat.toDigitsCore_length 10 (by decide) (i.toNat + 1) i.toNat e hlt he
    simp only [Nat.toDigits]
    omega

theorem build_merkle_tree_nil (SHA256 : CString → List Nat) (uninit : CString) :
    build_merkle_tree SHA256 uninit [] = uninit := by
  simp [build_merkle_tree, merkle_while]

/-- The fields of a block returned by `create_block`. -/
theorem create_block_some (SHA256 : CString → List Nat) (uninit : CString) (now : Int)
    (fuel : Nat) (index : Int) (previous_hash : CString) (data : List CString)
    (difficulty : Nat) (block : Block)
    (h : create_block SHA256 uninit now fuel index previous_hash data difficulty = some block) :
    block.hash = calculate_hash SHA256 block ∧
    strncmp block.hash (List.replicate difficulty '0') difficulty = 0 ∧
    block.index = index ∧ block.previous_hash = previous_hash.take 65 ∧
    block.merkle_root = build_merkle_tree SHA256 uninit data ∧
    block.data = data_label ∧ block.timestamp = now ∧
    0 < block.nonce ∧ block.nonce ≤ INT_MAX := by
  obtain ⟨h1, h2, h3, h4, h5, h6, h7, h8, h9⟩ := proof_of_work_some _ _ _ _ _ h
  exact ⟨h1, h2, h3, h4, h5, by rw [h6]; simp [snprintf, data_label], h7, h8, h9⟩

/-- C5. Proof-of-work postcondition: for every block and every difficulty
`d` with `0 ≤ d ≤ 64`, whenever `proof_of_work` terminates the stored hash of
the block has `'0'` in each of its first `d` characters. -/
theorem proof_of_work_leading_zeros (SHA256 : CString → List Nat) (difficulty fuel : Nat)
    (block sealed : Block) (hd : difficulty ≤ 64)
    (h : proof_of_work SHA256 difficulty fuel block = some sealed) :
    ∀ i, i < difficulty → sealed.hash[i]? = some '0' := by
  intro i hi
  have hcmp := (proof_of_work_some SHA256 difficulty fuel block sealed h).2.1
  rw [strncmp_eq_zero_iff, List.take_replicate, Nat.min_self] at hcmp
  rw [← List.getElem?_take_of_lt hi, hcmp]
  exact List.getElem?_replicate_of_lt hi

theorem proof_of_work_leading_zeros_witness :
    2 ≤ 64 ∧
    ∃ sealed : Block,
      proof_of_work sample_digest 2 10
          { index := 1, previous_hash := "0".toList, merkle_root := [], data := "x".toList,
            hash := [], nonce := 0, timestamp := 1700000000 } = some sealed ∧
      sealed.nonce = 2 ∧ ∀ i, i < 2 → sealed.hash[i]? = some '0' :=
  have h : proof_of_work sample_digest 2 10
      { index := 1, previous_hash := "0".toList, merkle_root := [], data := "x".toList,
        hash := [], nonce := 0, timestamp := 1700000000 } =
      some { index := 1, previous_hash := "0".toList, merkle_root := [], data := "x".toList,
             hash := "00f3".toList ++ List.replicate 60 '0', nonce := 2,
             timestamp := 1700000000 } := by decide!
  ⟨by decide, _, h, rfl, proof_of_work_leading_zeros sample_digest 2 10 _ _ (by decide) h⟩

/-- C6. Every block returned by `create_block` is sealed consistently: its
stored hash is the digest of the text index (decimal), previous_hash, data,
nonce (decimal), timestamp (decimal), merkle_root, in this order, at the final
field values, so `calculate_hash` on the returned block gives the stored hash.
The arguments are in the range of their C types (`int`, `time_t`), and the
previous hash and the memory read for an empty Merkle tree fit their 65-byte
fields. -/
theorem create_block_hash_of_fields (SHA256 : CString → List Nat) (uninit : CString)
    (now : Int) (fuel : Nat) (index : Int) (previous_hash : CString) (data : List CString)
    (difficulty : Nat) (block : Block)
    (hindex : -INT_MAX - 1 ≤ index ∧ index ≤ INT_MAX)
    (hnow : -LONG_MAX - 1 ≤ now ∧ now ≤ LONG_MAX)
    (hprev : previous_hash.length ≤ 64) (huninit : uninit.length ≤ 64)
    (h : create_block SHA256 uninit now fuel index previous_hash data difficulty = some block) :
    block.hash =
        calculate_transaction_hash SHA256
          (fmt_d block.index ++ block.previous_hash ++ block.data ++ fmt_d block.nonce
            ++ fmt_d block.timestamp ++ block.merkle_root) ∧
      calculate_hash SHA256 block = block.hash := by
  obtain ⟨h1, _, h3, h4, h5, h6, h7, h8, h9⟩ := create_block_some _ _ _ _ _ _ _ _ _ h
  refine ⟨?_, h1.symm⟩
  have hroot : block.merkle_root.length ≤ 64 := by
    rw [h5]
    by_cases hdata : data = []
    · rw [hdata, build_merkle_tree_nil]; exact huninit
    · exact (build_merkle_tree_length SHA256 uninit data hdata).le
  have hprev' : block.previous_hash.length ≤ 65 := by rw [h4]; simp
  have hlabel : block.data.length = 10 := by rw [h6]; decide
  have hi : (fmt_d block.index).length ≤ 11 :=
    fmt_d_length _ 10 (by decide) (by rw [h3]; simp only [INT_MAX] at hindex; omega)
  have hn : (fmt_d block.nonce).length ≤ 11 :=
    fmt_d_length _ 10 (by decide) (by simp only [INT_MAX] at h9; omega)
  have ht : (fmt_d block.timestamp).length ≤ 20 :=
    fmt_d_length _ 19 (by decide) (by rw [h7]; simp only [LONG_MAX] at hnow; omega)
  rw [h1]
  simp only [calculate_hash, calculate_transaction_hash, snprintf]
  rw [List.take_of_length_le (by simp only [List.length_append]; omega)]

theorem create_block_hash_of_fields_witness :
    (-INT_MAX - 1 ≤ 1 ∧ (1 : Int) ≤ INT_MAX) ∧
    (-LONG_MAX - 1 ≤ 1700000000 ∧ (1700000000 : Int) ≤ LONG_MAX) ∧
    "ab".toList.length ≤ 64 ∧ ([] : CString).length ≤ 64 ∧
    ∃ block : Block,
      create_block sample_digest [] 1700000000 10 1 "ab".toList ["a".toList, "b".toList] 2 =
        some block ∧
      block.nonce = 3 ∧
      block.hash =
        calculate_transaction_hash sample_digest
          (fmt_d block.index ++ block.previous_hash ++ block.data ++ fmt_d block.nonce
            ++ fmt_d block.timestamp ++ block.merkle_root) :=
  have h : create_block sample_digest [] 1700000000 10 1 "ab".toList
      ["a".toList, "b".toList] 2 =
      some { index := 1, previous_hash := "ab".toList,
             merkle_root := "cc2d".toList ++ List.replicate 60 '0', data := data_label,
             hash := "00c8".toList ++ List.replicate 60 '0', nonce := 3,
             timestamp := 1700000000 } := by decide!
  ⟨by decide, by decide, by decide, by decide, _, h, rfl,
    (create_block_hash_of_fields sample_digest [] 1700000000 10 1 "ab".toList
      ["a".toList, "b".toList] 2 _ (by decide) (by decide) (by decide) (by decide) h).1⟩

/-! ## Building the ledger -/

theorem add_block_some (SHA256 : CString → List Nat) (uninit : CString) (now : Int)
    (fuel : Nat) (blockchain : List Block) (data : List CString) (difficulty : Nat)
    (chain' : List Block)
    (h : add_block SHA256 uninit now fuel blockchain data difficulty = some chain') :
    ∃ last_block new_block,
      blockchain.getLast? = some last_block ∧ last_block.index < INT_MAX ∧
      create_block SHA256 uninit now fuel (last_block.index + 1) last_block.hash data
        difficulty = some new_block ∧
      chain' = blockchain ++ [new_block] := by
  unfold add_block at h
  split at h
  · exact absurd h (by simp)
  · next last_block hlast =>
    split_ifs at h with hlt
    obtain ⟨new_block, hnew, rfl⟩ := Option.map_eq_some'.1 h
    exact ⟨last_block, new_block, hlast, hlt, hnew, rfl⟩

theorem well_built_genesis (SHA256 : CString → List Nat) (uninit : CString) (now : Int)
    (fuel difficulty : Nat) (genesis : Block)
    (h : create_genesis_block SHA256 uninit now fuel difficulty = some genesis) :
    WellBuilt SHA256 [genesis] := by
  obtain ⟨h1, _, h3, h4, _⟩ := create_block_some _ _ _ _ _ _ _ _ _ h
  refine ⟨⟨genesis, rfl, by rw [h4]; rfl⟩, ?_, ?_, ?_⟩
  · intro b hb
    rw [List.mem_singleton.1 hb]
    exact h1
  · intro k current next _ hnext
    simp at hnext
  · intro k b hk
    cases k with
    | zero =>
      simp only [List.getElem?_cons_zero, Option.some.injEq] at hk
      rw [← hk, h3]; rfl
    | succ k => simp at hk

theorem well_built_add_block (SHA256 : CString → List Nat) (uninit : CString) (now : Int)
    (fuel : Nat) (blockchain : List Block) (data : List CString) (difficulty : Nat)
    (chain' : List Block) (hwb : WellBuilt SHA256 blockchain)
    (h : add_block SHA256 uninit now fuel blockchain data difficulty = some chain') :
    WellBuilt SHA256 chain' := by
  obtain ⟨last_block, new_block, hlast, _, hnew, rfl⟩ := add_block_some _ _ _ _ _ _ _ _ h
  obtain ⟨h1, _, h3, h4, _⟩ := create_block_some _ _ _ _ _ _ _ _ _ hnew
  have hmem : last_block ∈ blockchain := List.mem_of_getLast?_eq_some hlast
  have hlen : 0 < blockchain.length := List.length_pos_of_mem hmem
  have hlast' : blockchain[blockchain.length - 1]? = some last_block := by
    rw [← hlast, List.getLast?_eq_getElem?]
  have hprev : new_block.previous_hash = last_block.hash := by
    rw [h4, List.take_of_length_le]
    rw [hwb.sealed _ hmem, calculate_hash_length]
    omega
  have hidx : new_block.index = blockchain.length := by
    rw [h3, hwb.indexed _ _ hlast']
    omega
  obtain ⟨first, hfirst, hsent⟩ := hwb.genesis
  refine ⟨⟨first, ?_, hsent⟩, ?_, ?_, ?_⟩
  · rw [List.getElem?_append_left hlen]; exact hfirst
  · intro b hb
    rcases List.mem_append.1 hb with hb | hb
    · exact hwb.sealed b hb
    · rw [List.mem_singleton.1 hb]; exact h1
  · intro k current next hcur hnext
    by_cases hk : k + 1 < blockchain.length
    · rw [List.getElem?_append_left (by omega)] at hcur
      rw [List.getElem?_append_left hk] at hnext
      exact hwb.linked k current next hcur hnext
    · by_cases hk' : k + 1 = blockchain.length
      · rw [List.getElem?_append_left (by omega), show k = blockchain.length - 1 by omega,
          hlast'] at hcur
        rw [hk', List.getElem?_append_right le_rfl] at hnext
        simp only [Nat.sub_self, List.getElem?_cons_zero, Option.some.injEq] at hcur hnext
        rw [← hcur, ← hnext]; exact hprev
      · rw [List.getElem?_append_right (by omega)] at hnext
        rw [List.getElem?_eq_none (by simp; omega)] at hnext
        exact absurd hnext (by simp)
  · intro k b hk
    by_cases hlt : k < blockchain.length
    · rw [List.getElem?_append_left hlt] at hk
      exact hwb.indexed k b hk
    · rw [List.getElem?_append_right (by omega)] at hk
      by_cases hk' : k = blockchain.length
      · subst hk'
        simp only [Nat.sub_self, List.getElem?_cons_zero, Option.some.injEq] at hk
        rw [← hk]; exact hidx
      · rw [List.getElem?_eq_none (by simp; omega)] at hk
        exact absurd hk (by simp)

theorem well_built_add_blocks (SHA256 : CString → List Nat) (difficulty : Nat) :
    ∀ (calls : List Append) (blockchain chain : List Block),
      WellBuilt SHA256 blockchain →
      add_blocks SHA256 difficulty calls blockchain = some chain → WellBuilt SHA256 chain := by
  intro calls
  induction calls with
  | nil =>
    intro blockchain chain hwb h
    simp only [add_blocks, Option.some.injEq] at h
    exact h ▸ hwb
  | cons c calls ih =>
    intro blockchain chain hwb h
    simp only [add_blocks] at h
    obtain ⟨mid, hmid, hrest⟩ := Option.bind_eq_some.1 h
    exact ih mid chain (well_built_add_block _ _ _ _ _ _ _ _ hwb hmid) hrest

theorem well_built_build_ledger (SHA256 : CString → List Nat) (difficulty : Nat)
    (uninit : CString) (now : Int) (fuel : Nat) (calls : List Append) (chain : List Block)
    (h : build_ledger SHA256 difficulty uninit now fuel calls = some chain) :
    WellBuilt SHA256 chain := by
  obtain ⟨genesis, hg, hrest⟩ := Option.bind_eq_some.1 h
  exact well_built_add_blocks _ _ _ _ _ (well_built_genesis _ _ _ _ _ _ hg) hrest

/-- The sample run: genesis and two appended blocks at difficulty 2. -/
theorem sample_ledger :
    build_ledger sample_digest 2 [] 1700000000 10 sample_calls =
      some [sample_genesis, sample_block_1, sample_block_2] := by
  decide!

theorem add_blocks_length (SHA256 : CString → List Nat) (difficulty : Nat) :
    ∀ (calls : List Append) (blockchain chain : List Block),
      add_blocks SHA256 difficulty calls blockchain = some chain →
      chain.length = blockchain.length + calls.length := by
  intro calls
  induction calls with
  | nil =>
    intro blockchain chain h
    simp only [add_blocks, Option.some.injEq] at h
    simp [h]
  | cons c calls ih =>
    intro blockchain chain h
    simp only [add_blocks] at h
    obtain ⟨mid, hmid, hrest⟩ := Option.bind_eq_some.1 h
    obtain ⟨_, new_block, _, _, _, rfl⟩ := add_block_some _ _ _ _ _ _ _ _ hmid
    rw [ih _ _ hrest]
    simp only [List.length_append, List.length_cons, List.length_nil]
    omega

/-! ## Validation -/

/-- The loop of `validar` runs through a prefix whose blocks are linked and
sealed without reporting. -/
theorem validar_while_skip (SHA256 : CString → List Nat) (x : Block) (rest : List Block) :
    ∀ pre : List Block,
      (∀ (k : Nat) (current next : Block), (pre ++ [x])[k]? = some current →
        (pre ++ [x])[k + 1]? = some next → next.previous_hash = current.hash) →
      (∀ b ∈ pre, b.hash = calculate_hash SHA256 b) →
      validar_while SHA256 (pre ++ x :: rest) = validar_while SHA256 (x :: rest) := by
  intro pre
  induction pre with
  | nil => intro _ _; rfl
  | cons p pre ih =>
    intro hl hs
    have hrec := ih
      (fun k current next hc hn => hl (k + 1) current next (by simpa using hc) (by simpa using hn))
      (fun b hb => hs b (List.mem_cons_of_mem _ hb))
    have hp : strncmp p.hash (calculate_hash SHA256 p) 64 = 0 := by
      rw [← hs p (List.mem_cons_self _ _)]; exact strncmp_self _ _
    cases pre with
    | nil =>
      have hx : x.previous_hash = p.hash := hl 0 p x (by simp) (by simp)
      simp [validar_while, hx, strncmp_self, hp]
    | cons q pre =>
      have hq : q.previous_hash = p.hash := hl 0 p q (by simp) (by simp)
      rw [← hrec]
      simp [validar_while, hq, strncmp_self, hp]

theorem well_built_validar (SHA256 : CString → List Nat) (chain : List Block)
    (hwb : WellBuilt SHA256 chain) : validar SHA256 chain = Report.valid := by
  obtain ⟨first, hfirst, hsent⟩ := hwb.genesis
  cases chain with
  | nil => simp at hfirst
  | cons g rest =>
    simp only [List.getElem?_cons_zero, Option.some.injEq] at hfirst
    subst hfirst
    have hgen : strncmp g.previous_hash "0".toList 64 = 0 := by
      rw [hsent]; exact strncmp_self _ _
    simp only [validar, hgen, ne_eq, not_true_eq_false, if_false]
    obtain ⟨pre, x, hsplit⟩ : ∃ pre x, g :: rest = pre ++ [x] :=
      ⟨(g :: rest).dropLast, (g :: rest).getLast (by simp),
        (List.dropLast_append_getLast _).symm⟩
    rw [hsplit] at hwb ⊢
    rw [validar_while_skip SHA256 x [] pre hwb.linked
      (fun b hb => hwb.sealed b (List.mem_append_left _ hb))]
    rfl

theorem validar_of_sentinel (SHA256 : CString → List Nat) (first : Block)
    (rest : List Block) (h : first.previous_hash = "0".toList) :
    validar SHA256 (first :: rest) = validar_while SHA256 (first :: rest) := by
  simp [validar, h, strncmp_self]

theorem strncmp_ne_zero_of_ne (a b : CString) (ha : a.length ≤ 64) (hb : b.length ≤ 64)
    (hne : a ≠ b) : strncmp a b 64 ≠ 0 := by
  rw [Ne, strncmp_eq_zero_iff, List.take_of_length_le ha, List.take_of_length_le hb]
  exact hne

/-- Linkage of a chain gives linkage of each of its prefixes, also when the
last block of the prefix is replaced by one with the same `previous_hash`. -/
theorem linked_upto (pre post : List Block) (b b' : Block)
    (hb : b'.previous_hash = b.previous_hash)
    (hl : ∀ (k : Nat) (current next : Block), (pre ++ b :: post)[k]? = some current →
      (pre ++ b :: post)[k + 1]? = some next → next.previous_hash = current.hash) :
    ∀ (k : Nat) (current next : Block), (pre ++ [b'])[k]? = some current →
      (pre ++ [b'])[k + 1]? = some next → next.previous_hash = current.hash := by
  intro k current next hc hn
  have hk : k < pre.length := by
    by_contra hk
    rw [List.getElem?_eq_none (by simp; omega)] at hn
    exact absurd hn (by simp)
  rw [List.getElem?_append_left hk] at hc
  have hc' : (pre ++ b :: post)[k]? = some current := by
    rw [List.getElem?_append_left hk]; exact hc
  by_cases hk1 : k + 1 < pre.length
  · rw [List.getElem?_append_left hk1] at hn
    exact hl k current next hc' (by rw [List.getElem?_append_left hk1]; exact hn)
  · have hk2 : k + 1 = pre.length := by omega
    rw [hk2, List.getElem?_append_right le_rfl] at hn
    simp only [Nat.sub_self, List.getElem?_cons_zero, Option.some.injEq] at hn
    rw [← hn, hb]
    refine hl k current b hc' ?_
    rw [hk2, List.getElem?_append_right le_rfl]
    simp

/-- The loop of `validar` does not read the `data`, `hash`, `nonce`,
`timestamp` or `merkle_root` of the last block. -/
theorem validar_while_last_congr (SHA256 : CString → List Nat) (b b' : Block)
    (hp : b'.previous_hash = b.previous_hash) (hi : b'.index = b.index) :
    ∀ pre : List Block,
      validar_while SHA256 (pre ++ [b']) = validar_while SHA256 (pre ++ [b]) := by
  intro pre
  induction pre with
  | nil => rfl
  | cons p pre ih =>
    cases pre with
    | nil => simp [validar_while, hp, hi]
    | cons q pre =>
      have ih' : validar_while SHA256 (q :: (pre ++ [b'])) =
          validar_while SHA256 (q :: (pre ++ [b])) := ih
      show validar_while SHA256 (p :: q :: (pre ++ [b'])) =
        validar_while SHA256 (p :: q :: (pre ++ [b]))
      rw [validar_while, validar_while, ih']

theorem validar_last_congr (SHA256 : CString → List Nat) (b b' : Block)
    (hp : b'.previous_hash = b.previous_hash) (hi : b'.index = b.index)
    (pre : List Block) :
    validar SHA256 (pre ++ [b']) = validar SHA256 (pre ++ [b]) := by
  cases pre with
  | nil => simp [validar, validar_while, hp]
  | cons p pre =>
    have := validar_while_last_congr SHA256 b b' hp hi (p :: pre)
    simp only [List.cons_append] at this
    simp only [List.cons_append, validar, this]

/-- C2. A freshly built, untampered ledger validates: for every difficulty in
0..64 and every number of `add_block` calls after `create_genesis_block`, each
call with at least one transaction and each sealing terminating, `validar`
returns true (1) on the resulting ledger of `N + 1` blocks. -/
theorem fresh_ledger_validates (SHA256 : CString → List Nat) (difficulty : Nat)
    (uninit : CString) (now : Int) (fuel : Nat) (calls : List Append) (chain : List Block)
    (hd : difficulty ≤ 64) (hdata : ∀ c ∈ calls, c.data ≠ [])
    (h : build_ledger SHA256 difficulty uninit now fuel calls = some chain) :
    chain.length = calls.length + 1 ∧ validar SHA256 chain = Report.valid ∧
      (validar SHA256 chain).ret = 1 := by
  have hv := well_built_validar SHA256 chain (well_built_build_ledger _ _ _ _ _ _ _ h)
  obtain ⟨genesis, _, hrest⟩ := Option.bind_eq_some.1 h
  refine ⟨?_, hv, by rw [hv]; rfl⟩
  rw [add_blocks_length _ _ _ _ _ hrest]
  simp; omega

theorem fresh_ledger_validates_witness :
    2 ≤ 64 ∧ (∀ c ∈ sample_calls, c.data ≠ []) ∧
    build_ledger sample_digest 2 [] 1700000000 10 sample_calls =
      some [sample_genesis, sample_block_1, sample_block_2] ∧
    validar sample_digest [sample_genesis, sample_block_1, sample_block_2] = Report.valid :=
  ⟨by decide, by decide, sample_ledger,
    (fresh_ledger_validates sample_digest 2 [] 1700000000 10 sample_calls _ (by decide)
      (by decide) sample_ledger).2.1⟩

/-- C4. Chain linkage is an invariant of the build operations: in every ledger
produced by `create_genesis_block` followed by `add_block` calls, for every
adjacent pair (current, next), `next.previous_hash` equals `current.hash`. -/
theorem fresh_ledger_linked (SHA256 : CString → List Nat) (difficulty : Nat)
    (uninit : CString) (now : Int) (fuel : Nat) (calls : List Append) (chain : List Block)
    (h : build_ledger SHA256 difficulty uninit now fuel calls = some chain) :
    ∀ (k : Nat) (current next : Block),
      chain[k]? = some current → chain[k + 1]? = some next →
      next.previous_hash = current.hash :=
  (well_built_build_ledger _ _ _ _ _ _ _ h).linked

theorem fresh_ledger_linked_witness :
    build_ledger sample_digest 2 [] 1700000000 10 sample_calls =
      some [sample_genesis, sample_block_1, sample_block_2] ∧
    sample_block_2.previous_hash = sample_block_1.hash :=
  ⟨sample_ledger,
    fresh_ledger_linked sample_digest 2 [] 1700000000 10 sample_calls _ sample_ledger 1
      sample_block_1 sample_block_2 rfl rfl⟩

/-- C1, where the code departs from the claim. `validar` never recomputes the
hash of the last block: for every digest function, replacing the `data` of the
last block leaves the result of `validar` unchanged. In the sample run of
genesis and one appended block, the appended block with its `data` changed in
place has a recomputed hash different from the stored one, and `validar`
still reports a valid chain instead of a digest mismatch at index 1. -/
theorem validar_misses_last_block :
    (∀ (SHA256 : CString → List Nat) (pre : List Block) (b : Block) (data' : CString),
      validar SHA256 (pre ++ [{ b with data := data' }]) = validar SHA256 (pre ++ [b])) ∧
    build_ledger sample_digest 2 [] 1700000000 10
        [{ data := ["a".toList, "b".toList], now := 1700000005, uninit := [], fuel := 10 }] =
      some [sample_genesis, sample_block_1] ∧
    calculate_hash sample_digest { sample_block_1 with data := "x".toList } ≠
      sample_block_1.hash ∧
    validar sample_digest [sample_genesis, { sample_block_1 with data := "x".toList }] =
      Report.valid ∧
    (validar sample_digest
      [sample_genesis, { sample_block_1 with data := "x".toList }]).ret = 1 :=
  ⟨fun SHA256 pre b data' => validar_last_congr SHA256 b { b with data := data' } rfl rfl pre,
    by decide!, by decide!,
    by decide!, by decide!⟩

/-- C3 as stated fails at two places of the sample run: with one character of
the stored hash of the last block changed `validar` still reports a valid
chain, and with the one character of the `previous_hash` of the genesis block
changed it reports the genesis failure, which names no index. -/
theorem validar_tampering_counterexample :
    build_ledger sample_digest 2 [] 1700000000 10 sample_calls =
      some [sample_genesis, sample_block_1, sample_block_2] ∧
    validar sample_digest
        [sample_genesis, sample_block_1,
          { sample_block_2 with hash := sample_block_2.hash.set 0 'f' }] = Report.valid ∧
    validar sample_digest
        [{ sample_genesis with previous_hash := sample_genesis.previous_hash.set 0 '1' },
          sample_block_1, sample_block_2] = Report.genesis_previous_hash :=
  ⟨sample_ledger, by decide!, by decide!⟩

/-- C3, amended. In a freshly built ledger `pre ++ b :: post` (so `b` is the
block of index `pre.length`): changing one character of the stored hash of a
block that is not the last makes `validar` report chain corruption between
that block and the next; changing one character of the `previous_hash` of a
block that is not the first makes it report chain corruption between the block
before and that block; changing the `previous_hash` of the first block makes it
report the genesis failure. In each case `validar` returns false (0). -/
theorem validar_reports_tampering (SHA256 : CString → List Nat) (difficulty : Nat)
    (uninit : CString) (now : Int) (fuel : Nat) (calls : List Append)
    (pre post : List Block) (b : Block) (i : Nat) (c : Char)
    (h : build_ledger SHA256 difficulty uninit now fuel calls = some (pre ++ b :: post)) :
    (b.hash.set i c ≠ b.hash → post ≠ [] →
      validar SHA256 (pre ++ { b with hash := b.hash.set i c } :: post) =
        Report.corrupted pre.length (pre.length + 1)) ∧
    (b.previous_hash.set i c ≠ b.previous_hash → pre ≠ [] →
      validar SHA256 (pre ++ { b with previous_hash := b.previous_hash.set i c } :: post) =
        Report.corrupted (pre.length - 1) pre.length) ∧
    (b.previous_hash.set i c ≠ b.previous_hash → pre = [] →
      validar SHA256 (pre ++ { b with previous_hash := b.previous_hash.set i c } :: post) =
        Report.genesis_previous_hash) := by
  have hwb := well_built_build_ledger _ _ _ _ _ _ _ h
  have hb : (pre ++ b :: post)[pre.length]? = some b := by
    rw [List.getElem?_append_right le_rfl]; simp
  have hbidx : b.index = pre.length := hwb.indexed _ _ hb
  have hblen : b.hash.length = 64 := by
    rw [hwb.sealed b (by simp)]; exact calculate_hash_length _ _
  obtain ⟨first, hfirst, hsent⟩ := hwb.genesis
  refine ⟨?_, ?_, ?_⟩
  · -- the stored hash of a block that has a successor
    intro hchange hpost
    obtain ⟨next, post, rfl⟩ := List.exists_cons_of_ne_nil hpost
    have hn : (pre ++ b :: next :: post)[pre.length + 1]? = some next := by
      rw [List.getElem?_append_right (by omega)]; simp
    have hnprev : next.previous_hash = b.hash := hwb.linked _ _ _ hb hn
    have hnidx : next.index = pre.length + 1 := by
      rw [hwb.indexed _ _ hn]; push_cast; rfl
    have hhead : validar SHA256 (pre ++ { b with hash := b.hash.set i c } :: next :: post) =
        validar_while SHA256 (pre ++ { b with hash := b.hash.set i c } :: next :: post) := by
      cases pre with
      | nil =>
        simp only [List.nil_append, List.getElem?_cons_zero, Option.some.injEq] at hfirst ⊢
        exact validar_of_sentinel _ _ _ (by rw [← hsent, ← hfirst])
      | cons p pre =>
        simp only [List.cons_append, List.getElem?_cons_zero, Option.some.injEq] at hfirst ⊢
        exact validar_of_sentinel _ _ _ (by rw [← hsent, ← hfirst])
    rw [hhead, validar_while_skip SHA256 { b with hash := b.hash.set i c } (next :: post) pre
      (linked_upto pre (next :: post) b { b with hash := b.hash.set i c } rfl hwb.linked)
      (fun x hx => hwb.sealed x (List.mem_append_left _ hx))]
    have hne : strncmp (b.hash.set i c) next.previous_hash 64 ≠ 0 :=
      strncmp_ne_zero_of_ne _ _ (by simp [hblen]) (by rw [hnprev, hblen])
        (by rw [hnprev]; exact hchange)
    simp only [validar_while, hne, ne_eq, not_false_eq_true, if_true, hbidx, hnidx]
  · -- the previous hash of a block that has a predecessor
    intro hchange hpre
    obtain ⟨pre, p, rfl⟩ : ∃ pre' p, pre = pre' ++ [p] :=
      ⟨pre.dropLast, pre.getLast hpre, (List.dropLast_append_getLast hpre).symm⟩
    simp only [List.append_assoc, List.singleton_append, List.length_append,
      List.length_singleton] at hwb hb hbidx hfirst ⊢
    have hp : (pre ++ p :: b :: post)[pre.length]? = some p := by
      rw [List.getElem?_append_right le_rfl]; simp
    have hbprev : b.previous_hash = p.hash := hwb.linked _ _ _ hp hb
    have hpidx : p.index = pre.length := hwb.indexed _ _ hp
    have hplen : p.hash.length = 64 := by
      rw [hwb.sealed p (by simp)]; exact calculate_hash_length _ _
    have hhead : validar SHA256
        (pre ++ p :: { b with previous_hash := b.previous_hash.set i c } :: post) =
        validar_while SHA256
          (pre ++ p :: { b with previous_hash := b.previous_hash.set i c } :: post) := by
      cases pre with
      | nil =>
        simp only [List.nil_append, List.getElem?_cons_zero, Option.some.injEq] at hfirst ⊢
        exact validar_of_sentinel _ _ _ (by rw [← hsent, ← hfirst])
      | cons q pre =>
        simp only [List.cons_append, List.getElem?_cons_zero, Option.some.injEq] at hfirst ⊢
        exact validar_of_sentinel _ _ _ (by rw [← hsent, ← hfirst])
    rw [hhead, validar_while_skip SHA256 p
      ({ b with previous_hash := b.previous_hash.set i c } :: post) pre
      (linked_upto pre (b :: post) p p rfl hwb.linked)
      (fun x hx => hwb.sealed x (List.mem_append_left _ hx))]
    have hne : strncmp p.hash (b.previous_hash.set i c) 64 ≠ 0 :=
      strncmp_ne_zero_of_ne _ _ (by rw [hplen]) (by simp [hbprev, hplen])
        (by rw [← hbprev]; exact fun e => hchange e.symm)
    simp only [validar_while, hne, ne_eq, not_false_eq_true, if_true, hbidx, hpidx]
    push_cast
    congr 1
    ring
  · -- the previous hash of the first block
    intro hchange hpre
    subst hpre
    simp only [List.nil_append, List.getElem?_cons_zero, Option.some.injEq] at hfirst ⊢
    subst hfirst
    have hne : strncmp (b.previous_hash.set i c) "0".toList 64 ≠ 0 :=
      strncmp_ne_zero_of_ne _ _ (by simp [hsent]) (by decide)
        (by rw [← hsent]; exact hchange)
    simp only [validar, hne, ne_eq, not_false_eq_true, if_true]

theorem validar_reports_tampering_witness :
    build_ledger sample_digest 2 [] 1700000000 10 sample_calls =
      some ([sample_genesis] ++ sample_block_1 :: [sample_block_2]) ∧
    validar sample_digest
        [sample_genesis, { sample_block_1 with hash := sample_block_1.hash.set 0 'f' },
          sample_block_2] = Report.corrupted 1 2 ∧
    validar sample_digest
        [sample_genesis,
          { sample_block_1 with previous_hash := sample_block_1.previous_hash.set 0 'f' },
          sample_block_2] = Report.corrupted 0 1 ∧
    validar sample_digest
        [{ sample_genesis with previous_hash := sample_genesis.previous_hash.set 0 'f' },
          sample_block_1, sample_block_2] = Report.genesis_previous_hash :=
  have middle := validar_reports_tampering sample_digest 2 [] 1700000000 10 sample_calls
    [sample_genesis] [sample_block_2] sample_block_1 0 'f' sample_ledger
  have first := validar_reports_tampering sample_digest 2 [] 1700000000 10 sample_calls
    [] [sample_block_1, sample_block_2] sample_genesis 0 'f' sample_ledger
  ⟨sample_ledger, middle.1 (by decide) (by decide), middle.2.1 (by decide) (by decide),
    first.2.2 (by decide) rfl⟩

/-- C10. `add_block` on a non-empty ledger appends exactly one block at the
tail: whenever the sealing of the new block terminates, `add_block` returns
the old ledger, every block of it left as it was, followed by that one block,
whose index is the old tail's index plus one and whose `previous_hash` is the
old tail's stored hash (which fits its 65-byte field); so in a ledger built
from genesis, before and after the call, the block at position `k` has index
`k`. -/
theorem add_block_appends_one (SHA256 : CString → List Nat) (uninit : CString) (now : Int)
    (fuel : Nat) (blockchain : List Block) (data : List CString) (difficulty : Nat)
    (last_block new_block : Block)
    (hlast : blockchain.getLast? = some last_block)
    (hindex : last_block.index < INT_MAX) (hfit : last_block.hash.length ≤ 64)
    (hseal : create_block SHA256 uninit now fuel (last_block.index + 1) last_block.hash data
      difficulty = some new_block) :
    add_block SHA256 uninit now fuel blockchain data difficulty =
        some (blockchain ++ [new_block]) ∧
      new_block.index = last_block.index + 1 ∧
      new_block.previous_hash = last_block.hash ∧
      ∀ (d : Nat) (u : CString) (t : Int) (f : Nat) (calls : List Append),
        build_ledger SHA256 d u t f calls = some blockchain →
        ∀ (k : Nat) (b : Block), (blockchain ++ [new_block])[k]? = some b → b.index = k := by
  obtain ⟨_, _, h3, h4, _⟩ := create_block_some _ _ _ _ _ _ _ _ _ hseal
  have hadd : add_block SHA256 uninit now fuel blockchain data difficulty =
      some (blockchain ++ [new_block]) := by
    simp [add_block, hlast, hindex, hseal]
  refine ⟨hadd, h3, by rw [h4, List.take_of_length_le (by omega)], ?_⟩
  intro d u t f calls hbuild
  exact (well_built_add_block _ _ _ _ _ _ _ _
    (well_built_build_ledger _ _ _ _ _ _ _ hbuild) hadd).indexed

theorem add_block_appends_one_witness :
    [sample_genesis].getLast? = some sample_genesis ∧ sample_genesis.index < INT_MAX ∧
    sample_genesis.hash.length ≤ 64 ∧
    create_block sample_digest [] 1700000005 10 (sample_genesis.index + 1)
      sample_genesis.hash ["a".toList, "b".toList] 2 = some sample_block_1 ∧
    add_block sample_digest [] 1700000005 10 [sample_genesis] ["a".toList, "b".toList] 2 =
      some ([sample_genesis] ++ [sample_block_1]) ∧
    sample_block_1.index = sample_genesis.index + 1 ∧
    sample_block_1.previous_hash = sample_genesis.hash :=
  have hseal : create_block sample_digest [] 1700000005 10 (sample_genesis.index + 1)
      sample_genesis.hash ["a".toList, "b".toList] 2 = some sample_block_1 := by decide!
  have hth := add_block_appends_one sample_digest [] 1700000005 10 [sample_genesis]
    ["a".toList, "b".toList] 2 sample_genesis sample_block_1 rfl (by decide) (by decide) hseal
  ⟨rfl, by decide, by decide, hseal, hth.1, hth.2.1, hth.2.2.1⟩

/-! ## Genesis and the menu loop -/

/-- C11. For every difficulty, the block returned by `create_genesis_block`
has index 0 and `previous_hash` equal to the sentinel string "0". -/
theorem create_genesis_block_sentinel (SHA256 : CString → List Nat) (uninit : CString)
    (now : Int) (fuel difficulty : Nat) (genesis : Block)
    (h : create_genesis_block SHA256 uninit now fuel difficulty = some genesis) :
    genesis.index = 0 ∧ genesis.previous_hash = "0".toList := by
  obtain ⟨_, _, h3, h4, _⟩ := create_block_some _ _ _ _ _ _ _ _ _ h
  exact ⟨h3, by rw [h4]; rfl⟩

theorem create_genesis_block_sentinel_witness :
    create_genesis_block sample_digest [] 1700000000 10 2 = some sample_genesis ∧
    sample_genesis.index = 0 ∧ sample_genesis.previous_hash = "0".toList :=
  have h : create_genesis_block sample_digest [] 1700000000 10 2 = some sample_genesis := by
    decide!
  ⟨h, create_genesis_block_sentinel sample_digest [] 1700000000 10 2 sample_genesis h⟩

/-- C12, where the code departs from the claim. `create_genesis_block` does
not skip the Merkle aggregation: `build_merkle_tree` runs with no transaction
and copies `hashes[0]`, an element of an empty array that was never written,
so the `merkle_root` of the genesis block is whatever that memory holds. Two
genesis calls that differ only in that memory give different roots. -/
theorem genesis_merkle_root_not_fixed :
    (∀ (SHA256 : CString → List Nat) (uninit : CString) (now : Int) (fuel difficulty : Nat)
        (genesis : Block),
      create_genesis_block SHA256 uninit now fuel difficulty = some genesis →
      genesis.merkle_root = uninit) ∧
    ∃ first second : Block,
      create_genesis_block sample_digest [] 1700000000 10 2 = some first ∧
      create_genesis_block sample_digest "junk".toList 1700000000 10 2 = some second ∧
      first.merkle_root = [] ∧ second.merkle_root = "junk".toList ∧
      first.merkle_root ≠ second.merkle_root :=
  have h1 : create_genesis_block sample_digest [] 1700000000 10 2 = some sample_genesis := by
    decide!
  have h2 : create_genesis_block sample_digest "junk".toList 1700000000 10 2 =
      some { index := 0, previous_hash := "0".toList, merkle_root := "junk".toList,
             data := data_label, hash := "0051".toList ++ List.replicate 60 '0', nonce := 4,
             timestamp := 1700000000 } := by decide!
  ⟨fun SHA256 uninit _ _ _ _ h => by
      rw [(create_block_some _ _ _ _ _ _ _ _ _ h).2.2.2.2.1, build_merkle_tree_nil],
    _, _, h1, h2, rfl, rfl, by decide⟩

/-- C13 as stated fails on the sample run: `add_block` with no transaction on
the ledger that holds the genesis block returns a ledger of two blocks. -/
theorem add_block_empty_batch_counterexample :
    add_block sample_digest [] 1700000005 10 [sample_genesis] [] 2 =
      some [sample_genesis,
        { index := 1, previous_hash := sample_genesis.hash, merkle_root := [],
          data := data_label, hash := "007e".toList ++ List.replicate 60 '0', nonce := 1,
          timestamp := 1700000005 }] := by
  decide!

/-- C13, amended. Appending with zero transactions is not rejected: `add_block`
has no check and no error result. On a ledger whose last block is
`last_block`, whenever the sealing of the new block terminates, `add_block`
returns the ledger with exactly that one block linked at the tail, its index
the tail's index plus one and its `previous_hash` the tail's stored hash. -/
theorem add_block_empty_batch (SHA256 : CString → List Nat) (uninit : CString) (now : Int)
    (fuel : Nat) (blockchain : List Block) (difficulty : Nat) (last_block new_block : Block)
    (hlast : blockchain.getLast? = some last_block)
    (hindex : last_block.index < INT_MAX) (hfit : last_block.hash.length ≤ 64)
    (hseal : create_block SHA256 uninit now fuel (last_block.index + 1) last_block.hash []
      difficulty = some new_block) :
    add_block SHA256 uninit now fuel blockchain [] difficulty =
        some (blockchain ++ [new_block]) ∧
      new_block.index = last_block.index + 1 ∧
      new_block.previous_hash = last_block.hash := by
  obtain ⟨_, _, h3, h4, _⟩ := create_block_some _ _ _ _ _ _ _ _ _ hseal
  refine ⟨?_, h3, by rw [h4, List.take_of_length_le (by omega)]⟩
  simp [add_block, hlast, hindex, hseal]

theorem add_block_empty_batch_witness :
    [sample_genesis].getLast? = some sample_genesis ∧ sample_genesis.index < INT_MAX ∧
    sample_genesis.hash.length ≤ 64 ∧
    ∃ new_block : Block,
      create_block sample_digest [] 1700000005 10 (sample_genesis.index + 1)
        sample_genesis.hash [] 2 = some new_block ∧
      add_block sample_digest [] 1700000005 10 [sample_genesis] [] 2 =
        some ([sample_genesis] ++ [new_block]) ∧
      new_block.index = sample_genesis.index + 1 :=
  have hseal : create_block sample_digest [] 1700000005 10 (sample_genesis.index + 1)
      sample_genesis.hash [] 2 =
      some { index := 1, previous_hash := sample_genesis.hash, merkle_root := [],
             data := data_label, hash := "007e".toList ++ List.replicate 60 '0', nonce := 1,
             timestamp := 1700000005 } := by decide!
  have hth := add_block_empty_batch sample_digest [] 1700000005 10 [sample_genesis] 2
    sample_genesis _ rfl (by decide) (by decide) hseal
  ⟨rfl, by decide, by decide, _, hseal, hth.1, hth.2.1⟩

/-- C14. Append on an empty ledger is an error: option 2 of the menu on the
empty ledger prints that the genesis block must be created first, creates no
block (`add_block` is not called) and leaves the ledger empty. -/
theorem append_on_empty_ledger (SHA256 : CString → List Nat) (r : Round) :
    main_switch SHA256 { r with option := 2 } [] = some ([], Output.genesis_first) ∧
      main_loop SHA256 [{ r with option := 2 }] [] = some [] := by
  constructor <;> simp [main_loop, main_switch]

/-- A round of the menu loop keeps the ledger empty or well built. -/
theorem main_switch_well_built (SHA256 : CString → List Nat) (r : Round)
    (blockchain chain : List Block) (out : Output)
    (hinv : blockchain = [] ∨ WellBuilt SHA256 blockchain)
    (h : main_switch SHA256 r blockchain = some (chain, out)) :
    chain = [] ∨ WellBuilt SHA256 chain := by
  unfold main_switch at h
  split_ifs at h with h1 hnil h2 hne h3 hne3 h4 h5 hne5
  · obtain ⟨genesis, hg, hpair⟩ := Option.map_eq_some'.1 h
    simp only [Prod.mk.injEq] at hpair
    rw [← hpair.1]
    exact Or.inr (well_built_genesis _ _ _ _ _ _ hg)
  · simp only [Option.some.injEq, Prod.mk.injEq] at h; rw [← h.1]; exact hinv
  · obtain ⟨chain', hadd, hpair⟩ := Option.map_eq_some'.1 h
    simp only [Prod.mk.injEq] at hpair
    rw [← hpair.1]
    rcases hinv with hinv | hinv
    · exact absurd hinv hne
    · exact Or.inr (well_built_add_block _ _ _ _ _ _ _ _ hinv hadd)
  all_goals
    simp only [Option.some.injEq, Prod.mk.injEq] at h
    rw [← h.1]
    exact hinv

theorem main_loop_well_built (SHA256 : CString → List Nat) :
    ∀ (rounds : List Round) (blockchain chain : List Block),
      (blockchain = [] ∨ WellBuilt SHA256 blockchain) →
      main_loop SHA256 rounds blockchain = some chain →
      chain = [] ∨ WellBuilt SHA256 chain := by
  intro rounds
  induction rounds with
  | nil =>
    intro blockchain chain hinv h
    simp only [main_loop, Option.some.injEq] at h
    exact h ▸ hinv
  | cons r rounds ih =>
    intro blockchain chain hinv h
    rw [main_loop] at h
    split at h
    · exact absurd h (by simp)
    · next mid out hsw =>
      have hmid := main_switch_well_built SHA256 r blockchain mid out hinv hsw
      split_ifs at h
      · exact ih mid chain hmid h
      · simp only [Option.some.injEq] at h
        exact h ▸ hmid

/-- C15 as stated fails at the state the loop of `main` starts in: the empty
ledger is reachable (no round has run) and holds no block with index 0. -/
theorem genesis_once_counterexample :
    main_loop sample_digest [] [] = some [] ∧ ¬ ∃ b ∈ ([] : List Block), b.index = 0 := by
  constructor
  · rfl
  · simp

/-- C15, amended. Genesis is created at most once: option 1 of the menu on a
ledger that already holds a block prints that the genesis block exists and
leaves the whole ledger unchanged; and every state the loop of `main` reaches
from the empty ledger is either the empty ledger or holds exactly one block
with index 0, which is its first block. -/
theorem genesis_at_most_once (SHA256 : CString → List Nat) (rounds : List Round)
    (chain : List Block) (h : main_loop SHA256 rounds [] = some chain) :
    (∀ (r : Round) (blockchain : List Block), blockchain ≠ [] →
      main_switch SHA256 { r with option := 1 } blockchain =
        some (blockchain, Output.genesis_exists)) ∧
    (chain = [] ∨
      ∃ genesis rest, chain = genesis :: rest ∧ genesis.index = 0 ∧
        ∀ b ∈ rest, b.index ≠ 0) := by
  refine ⟨fun r blockchain hne => by simp [main_switch, hne], ?_⟩
  rcases main_loop_well_built SHA256 rounds [] chain (Or.inl rfl) h with hnil | hwb
  · exact Or.inl hnil
  · right
    obtain ⟨first, hfirst, _⟩ := hwb.genesis
    cases chain with
    | nil => simp at hfirst
    | cons genesis rest =>
      refine ⟨genesis, rest, rfl, ?_, ?_⟩
      · have := hwb.indexed 0 genesis (by simp)
        simpa using this
      · intro b hb
        obtain ⟨k, hk, hbk⟩ := List.getElem_of_mem hb
        have := hwb.indexed (k + 1) b (by simp [List.getElem?_eq_getElem hk, hbk])
        rw [this]
        push_cast
        omega

theorem genesis_at_most_once_witness :
    main_loop sample_digest
        [{ option := 1, now := 1700000000, uninit := [], fuel := 10, row0 := [], row1 := [] },
         { option := 2, now := 1700000005, uninit := [], fuel := 10, row0 := "a".toList,
           row1 := "b".toList },
         { option := 1, now := 1700000007, uninit := [], fuel := 10, row0 := [], row1 := [] }]
        [] = some [sample_genesis, sample_block_1] ∧
    ([sample_genesis, sample_block_1] = [] ∨
      ∃ genesis rest, [sample_genesis, sample_block_1] = genesis :: rest ∧
        genesis.index = 0 ∧ ∀ b ∈ rest, b.index ≠ 0) :=
  have h : main_loop sample_digest
      [{ option := 1, now := 1700000000, uninit := [], fuel := 10, row0 := [], row1 := [] },
       { option := 2, now := 1700000005, uninit := [], fuel := 10, row0 := "a".toList,
         row1 := "b".toList },
       { option := 1, now := 1700000007, uninit := [], fuel := 10, row0 := [], row1 := [] }]
      [] = some [sample_genesis, sample_block_1] := by decide!
  ⟨h, (genesis_at_most_once sample_digest _ _ h).2⟩

/-! ## Order and exact condition of the checks of `validar` -/

/-- C16 as stated fails on the sample run with two changes: the `data` of the
genesis block is changed, so its stored hash is no longer the recomputed one,
and one character of the `previous_hash` of the last block is changed, so
(block 1, block 2) is the first and only pair that is not linked. `validar`
reports the wrong hash of block 0, not chain corruption between 1 and 2. -/
theorem validar_order_counterexample :
    sample_genesis.previous_hash = "0".toList ∧
    sample_block_1.previous_hash = sample_genesis.hash ∧
    sample_block_2.previous_hash.set 0 'f' ≠ sample_block_1.hash ∧
    validar sample_digest
        [{ sample_genesis with data := "x".toList }, sample_block_1,
          { sample_block_2 with previous_hash := sample_block_2.previous_hash.set 0 'f' }] =
      Report.wrong_hash 0 := by
  refine ⟨rfl, rfl, by decide, by decide!⟩

/-- C16, amended. The loop of `validar` checks, block by block, first the link
to the next block and then the hash of the block itself, and stops at the
first check that fails. In a ledger whose first block has `previous_hash` "0",
let `current` be a block with successor `next` such that all pairs up to
`current` are linked and every block before `current` has its recomputed hash
as stored hash. If `next.previous_hash` differs from `current.hash`, `validar`
reports chain corruption naming the indices of that pair, also when the stored
hash of `current` or of a later block is wrong. If the pair is linked and the
stored hash of `current` differs from its recomputed hash, `validar` reports
the wrong hash of `current`, also when a later pair is not linked. If both
checks pass, the walk goes on from `next`. -/
theorem validar_reports_first_failure (SHA256 : CString → List Nat)
    (pre post : List Block) (current next : Block)
    (hsent : ∃ first, (pre ++ [current])[0]? = some first ∧
      first.previous_hash = "0".toList)
    (hlinked : ∀ (k : Nat) (a b : Block), (pre ++ [current])[k]? = some a →
      (pre ++ [current])[k + 1]? = some b → b.previous_hash = a.hash)
    (hsealed : ∀ b ∈ pre, b.hash = calculate_hash SHA256 b)
    (hfit : current.hash.length ≤ 64 ∧ next.previous_hash.length ≤ 64) :
    (next.previous_hash ≠ current.hash →
      validar SHA256 (pre ++ current :: next :: post) =
        Report.corrupted current.index next.index) ∧
    (next.previous_hash = current.hash → current.hash ≠ calculate_hash SHA256 current →
      validar SHA256 (pre ++ current :: next :: post) = Report.wrong_hash current.index) ∧
    (next.previous_hash = current.hash → current.hash = calculate_hash SHA256 current →
      validar SHA256 (pre ++ current :: next :: post) =
        validar_while SHA256 (next :: post)) := by
  obtain ⟨first, hfirst, hzero⟩ := hsent
  have hhead : validar SHA256 (pre ++ current :: next :: post) =
      validar_while SHA256 (pre ++ current :: next :: post) := by
    cases pre with
    | nil =>
      simp only [List.nil_append, List.getElem?_cons_zero, Option.some.injEq] at hfirst ⊢
      exact validar_of_sentinel _ _ _ (by rw [← hzero, ← hfirst])
    | cons p pre =>
      simp only [List.cons_append, List.getElem?_cons_zero, Option.some.injEq] at hfirst ⊢
      exact validar_of_sentinel _ _ _ (by rw [← hzero, ← hfirst])
  rw [hhead, validar_while_skip SHA256 current (next :: post) pre hlinked hsealed]
  refine ⟨fun hbroken => ?_, fun hlink hwrong => ?_, fun hlink hright => ?_⟩
  · have hne : strncmp current.hash next.previous_hash 64 ≠ 0 :=
      strncmp_ne_zero_of_ne _ _ hfit.1 hfit.2 (fun e => hbroken e.symm)
    simp only [validar_while, hne, ne_eq, not_false_eq_true, if_true]
  · have hne : strncmp current.hash (calculate_hash SHA256 current) 64 ≠ 0 :=
      strncmp_ne_zero_of_ne _ _ hfit.1 (calculate_hash_length _ _).le hwrong
    rw [validar_while, hlink, if_neg (not_not.2 (strncmp_self _ _)), if_pos hne]
  · rw [validar_while, hlink, if_neg (not_not.2 (strncmp_self _ _)), ← hright,
      if_neg (not_not.2 (strncmp_self _ _))]

theorem validar_reports_first_failure_witness :
    (∀ b ∈ [sample_genesis], b.hash = calculate_hash sample_digest b) ∧
    sample_block_2.previous_hash.set 0 'f' ≠ sample_block_1.hash ∧
    validar sample_digest
        [sample_genesis, { sample_block_1 with data := "x".toList },
          { sample_block_2 with previous_hash := sample_block_2.previous_hash.set 0 'f' }] =
      Report.corrupted 1 2 ∧
    sample_genesis.hash ≠ calculate_hash sample_digest
      { sample_genesis with data := "x".toList } ∧
    validar sample_digest
        [{ sample_genesis with data := "x".toList }, sample_block_1,
          { sample_block_2 with previous_hash := sample_block_2.previous_hash.set 0 'f' }] =
      Report.wrong_hash 0 :=
  have hsealed : ∀ b ∈ [sample_genesis], b.hash = calculate_hash sample_digest b := by
    decide!
  have hwrong : sample_genesis.hash ≠ calculate_hash sample_digest
      { sample_genesis with data := "x".toList } := by decide!
  have link := validar_reports_first_failure sample_digest [sample_genesis] []
    { sample_block_1 with data := "x".toList }
    { sample_block_2 with previous_hash := sample_block_2.previous_hash.set 0 'f' }
    ⟨sample_genesis, rfl, rfl⟩
    (fun k a b ha hb => by
      match k with
      | 0 =>
        simp only [List.singleton_append, List.getElem?_cons_zero, List.getElem?_cons_succ,
          Option.some.injEq] at ha hb
        rw [← ha, ← hb]; rfl
      | k + 1 => simp at hb)
    hsealed ⟨by decide, by decide⟩
  have hash := validar_reports_first_failure sample_digest []
    [{ sample_block_2 with previous_hash := sample_block_2.previous_hash.set 0 'f' }]
    { sample_genesis with data := "x".toList } sample_block_1
    ⟨{ sample_genesis with data := "x".toList }, rfl, rfl⟩
    (fun k a b _ hb => by simp at hb)
    (fun b hb => by simp at hb) ⟨by decide, by decide⟩
  ⟨hsealed, by decide, link.1 (by decide), hwrong, hash.2.1 rfl hwrong⟩

theorem validar_while_valid_iff (SHA256 : CString → List Nat) :
    ∀ chain : List Block,
      validar_while SHA256 chain = Report.valid ↔
        ∀ (k : Nat) (current next : Block), chain[k]? = some current →
          chain[k + 1]? = some next →
          strncmp current.hash next.previous_hash 64 = 0 ∧
            strncmp current.hash (calculate_hash SHA256 current) 64 = 0
  | [] => by simp [validar_while]
  | [_] => by simp [validar_while]
  | x :: y :: rest => by
    have ih := validar_while_valid_iff SHA256 (y :: rest)
    rw [validar_while]
    constructor
    · intro h
      split_ifs at h with h1 h2
      have hrest := ih.1 h
      intro k current next hc hn
      cases k with
      | zero =>
        simp only [List.getElem?_cons_zero, List.getElem?_cons_succ, zero_add,
          Option.some.injEq] at hc hn
        rw [← hc, ← hn]
        exact ⟨not_not.1 h1, not_not.1 h2⟩
      | succ k => exact hrest k current next (by simpa using hc) (by simpa using hn)
    · intro h
      obtain ⟨h1, h2⟩ := h 0 x y (by simp) (by simp)
      rw [if_neg (not_not.2 h1), if_neg (not_not.2 h2)]
      exact ih.2 fun k current next hc hn =>
        h (k + 1) current next (by simpa using hc) (by simpa using hn)

theorem strncmp_sentinel_iff (s : CString) :
    strncmp s "0".toList 64 = 0 ↔ s = "0".toList := by
  rw [strncmp_eq_zero_iff]
  constructor
  · intro h
    have hlen : (s.take 64).length = 1 := by rw [h]; rfl
    rw [List.length_take] at hlen
    rw [List.take_of_length_le (by omega)] at h
    exact h
  · intro h; rw [h]

theorem report_ret_eq_one_iff (r : Report) : r.ret = 1 ↔ r = Report.valid := by
  cases r <;> simp [Report.ret]

/-- C18. Exact acceptance condition of `validar`, for ledgers whose stored
hashes fit their 65-byte fields: `validar` returns true (1) if and only if the
ledger is non-empty, the `previous_hash` of its first block is "0", and every
block that has a successor (a) has a stored hash equal to the successor's
`previous_hash` on the first 64 characters and (b) has a stored hash equal to
`calculate_hash` of its fields. Nothing is asked of the stored hash of the last
block: every single-block ledger with `previous_hash` "0" is accepted. -/
theorem validar_accepts_iff (SHA256 : CString → List Nat) (chain : List Block)
    (hfit : ∀ b ∈ chain, b.hash.length ≤ 64) :
    ((validar SHA256 chain).ret = 1 ↔
      (∃ first, chain[0]? = some first ∧ first.previous_hash = "0".toList) ∧
      ∀ (k : Nat) (current next : Block), chain[k]? = some current →
        chain[k + 1]? = some next →
        current.hash.take 64 = next.previous_hash.take 64 ∧
          current.hash = calculate_hash SHA256 current) ∧
    ∀ single : Block, single.previous_hash = "0".toList →
      (validar SHA256 [single]).ret = 1 := by
  constructor
  · rw [report_ret_eq_one_iff]
    have hcond : ∀ (k : Nat) (current next : Block), chain[k]? = some current →
        ((strncmp current.hash next.previous_hash 64 = 0 ∧
            strncmp current.hash (calculate_hash SHA256 current) 64 = 0) ↔
          (current.hash.take 64 = next.previous_hash.take 64 ∧
            current.hash = calculate_hash SHA256 current)) := by
      intro k current next hc
      have hmem : current ∈ chain := List.getElem?_mem hc
      rw [strncmp_eq_zero_iff, strncmp_eq_zero_iff, List.take_of_length_le (hfit _ hmem),
        List.take_of_length_le (calculate_hash_length SHA256 current).le]
    cases chain with
    | nil => simp [validar]
    | cons first rest =>
      simp only [validar, List.getElem?_cons_zero, Option.some.injEq, exists_eq_left']
      by_cases hs : first.previous_hash = "0".toList
      · rw [if_neg (not_not.2 ((strncmp_sentinel_iff _).2 hs)), validar_while_valid_iff]
        constructor
        · intro h
          exact ⟨hs, fun k current next hc hn => (hcond k current next hc).1 (h k _ _ hc hn)⟩
        · rintro ⟨_, h⟩
          exact fun k current next hc hn => (hcond k current next hc).2 (h k _ _ hc hn)
      · rw [if_pos (fun h => hs ((strncmp_sentinel_iff _).1 h))]
        constructor
        · intro h; cases h
        · rintro ⟨h, _⟩; exact absurd h hs
  · intro single hs
    have h0 := (strncmp_sentinel_iff _).2 hs
    rw [report_ret_eq_one_iff, validar, if_neg (not_not.2 h0)]
    rfl

theorem validar_accepts_iff_witness :
    (∀ b ∈ [sample_genesis, sample_block_1, sample_block_2], b.hash.length ≤ 64) ∧
    ((validar sample_digest [sample_genesis, sample_block_1, sample_block_2]).ret = 1 ↔
      (∃ first, [sample_genesis, sample_block_1, sample_block_2][0]? = some first ∧
        first.previous_hash = "0".toList) ∧
      ∀ (k : Nat) (current next : Block),
        [sample_genesis, sample_block_1, sample_block_2][k]? = some current →
        [sample_genesis, sample_block_1, sample_block_2][k + 1]? = some next →
        current.hash.take 64 = next.previous_hash.take 64 ∧
          current.hash = calculate_hash sample_digest current) :=
  ⟨by decide,
    (validar_accepts_iff sample_digest [sample_genesis, sample_block_1, sample_block_2]
      (by decide)).1⟩

/-! ## Format of the digest -/

theorem digitChar_hex (n : Nat) (h : n < 16) :
    some (Nat.digitChar n) = "0123456789abcdef".toList[n]? := by
  interval_cases n <;> rfl

theorem flatMap_pair_getElem? {α β : Type} (g h : α → β) :
    ∀ (l : List α) (i : Nat),
      (l.flatMap fun x => [g x, h x])[2 * i]? = l[i]?.map g ∧
        (l.flatMap fun x => [g x, h x])[2 * i + 1]? = l[i]?.map h
  | [], i => by simp
  | x :: xs, 0 => by simp [List.flatMap_cons]
  | x :: xs, i + 1 => by
    have ih := flatMap_pair_getElem? g h xs i
    rw [show 2 * (i + 1) = 2 * i + 1 + 1 by ring, show 2 * i + 1 + 1 + 1 = (2 * i + 1) + 1 + 1 by rfl]
    simp only [List.flatMap_cons, List.cons_append, List.nil_append, List.getElem?_cons_succ]
    exact ih

/-- C17. Digest determinism and format: for every input string,
`calculate_transaction_hash` gives the same output for the same input, and the
output is exactly 64 characters long, each one of `0`-`9` or `a`-`f`: the two
digits, in lower case, of each of the 32 bytes of the hash, in order. -/
theorem calculate_transaction_hash_format (SHA256 : CString → List Nat) (data : CString) :
    (∀ again : CString, again = data →
      calculate_transaction_hash SHA256 again = calculate_transaction_hash SHA256 data) ∧
    (calculate_transaction_hash SHA256 data).length = 64 ∧
    (∀ c ∈ calculate_transaction_hash SHA256 data, c ∈ "0123456789abcdef".toList) ∧
    ∀ i, i < 32 →
      (calculate_transaction_hash SHA256 data)[2 * i]? =
          "0123456789abcdef".toList[(SHA256 data).getD i 0 / 16 % 16]? ∧
        (calculate_transaction_hash SHA256 data)[2 * i + 1]? =
          "0123456789abcdef".toList[(SHA256 data).getD i 0 % 16]? := by
  refine ⟨fun again h => by rw [h], calculate_transaction_hash_length _ _, ?_, ?_⟩
  · intro c hc
    simp only [calculate_transaction_hash, hex_digest, fmt_02x, List.mem_flatMap,
      List.mem_cons, List.mem_singleton, List.not_mem_nil, or_false] at hc
    obtain ⟨i, _, rfl | rfl⟩ := hc
    · exact List.getElem?_mem (digitChar_hex _ (Nat.mod_lt _ (by decide))).symm
    · exact List.getElem?_mem (digitChar_hex _ (Nat.mod_lt _ (by decide))).symm
  · intro i hi
    have hpair := flatMap_pair_getElem?
      (fun k => Nat.digitChar ((SHA256 data).getD k 0 / 16 % 16))
      (fun k => Nat.digitChar ((SHA256 data).getD k 0 % 16)) (List.range 32) i
    have hrange : (List.range 32)[i]? = some i := by
      rw [List.getElem?_range hi]
    simp only [hrange, Option.map_some'] at hpair
    simp only [calculate_transaction_hash, hex_digest, fmt_02x, SHA256_DIGEST_LENGTH]
    rw [hpair.1, hpair.2]
    exact ⟨digitChar_hex _ (Nat.mod_lt _ (by decide)), digitChar_hex _ (Nat.mod_lt _ (by decide))⟩

/-! ## The nonce found by the search -/

/-- No nonce strictly between the one the block enters with and the sealed
one gives a hash with `difficulty` leading zeros. -/
theorem proof_of_work_skipped (SHA256 : CString → List Nat) (difficulty : Nat) :
    ∀ (fuel : Nat) (block sealed : Block),
      proof_of_work SHA256 difficulty fuel block = some sealed →
      ∀ m : Int, block.nonce < m → m < sealed.nonce →
        (calculate_hash SHA256 { block with nonce := m }).take difficulty ≠
          List.replicate difficulty '0' := by
  intro fuel
  induction fuel with
  | zero => intro block sealed h; simp [proof_of_work] at h
  | succ fuel ih =>
    intro block sealed h m hlo hhi
    rw [proof_of_work] at h
    dsimp only at h
    split_ifs at h with hlt hne
    · by_cases hm : m = block.nonce + 1
      · subst hm
        intro heq
        apply hne
        rw [strncmp_eq_zero_iff, List.take_replicate, Nat.min_self]
        exact heq
      · have := ih _ _ h m (by simp only; omega) hhi
        exact this
    · injection h with h
      subst h
      simp only at hhi
      omega

/-- C19. The sealed nonce is the least successful one: for a block entering
`proof_of_work` with nonce 0 and a difficulty `d` in 0..64, if the search
terminates with nonce `n` then `n ≥ 1`, the stored hash is the digest at nonce
`n` and has `d` leading `'0'` characters, and for no `m` with `1 ≤ m < n` the
digest of the same block with nonce `m` has them; with `d = 0` the search
makes exactly one attempt and `n = 1`. No field other than `nonce` and `hash`
is changed. -/
theorem proof_of_work_least_nonce (SHA256 : CString → List Nat) (difficulty fuel : Nat)
    (block sealed : Block) (h0 : block.nonce = 0) (hd : difficulty ≤ 64)
    (h : proof_of_work SHA256 difficulty fuel block = some sealed) :
    1 ≤ sealed.nonce ∧
    sealed.hash = calculate_hash SHA256 { block with nonce := sealed.nonce } ∧
    sealed.hash.take difficulty = List.replicate difficulty '0' ∧
    (∀ m : Int, 1 ≤ m → m < sealed.nonce →
      (calculate_hash SHA256 { block with nonce := m }).take difficulty ≠
        List.replicate difficulty '0') ∧
    (difficulty = 0 → sealed.nonce = 1 ∧ proof_of_work SHA256 0 1 block = some sealed) ∧
    sealed = { block with nonce := sealed.nonce, hash := sealed.hash } := by
  obtain ⟨h1, h2, h3, h4, h5, h6, h7, h8, _⟩ := proof_of_work_some _ _ _ _ _ h
  have hskip := proof_of_work_skipped SHA256 difficulty fuel block sealed h
  have hsame : sealed = { block with nonce := sealed.nonce, hash := sealed.hash } := by
    cases sealed
    simp only at h3 h4 h5 h6 h7
    simp only [Block.mk.injEq]
    exact ⟨h3, h4, h5, h6, trivial, trivial, h7⟩
  refine ⟨by omega, ?_, ?_, ?_, ?_, hsame⟩
  · rw [h1]
    exact calculate_hash_congr _ _ _ h3 h4 h6 rfl h7 h5
  · rw [strncmp_eq_zero_iff, List.take_replicate, Nat.min_self] at h2
    exact h2
  · intro m hm1 hm2
    exact hskip m (by omega) hm2
  · intro hzero
    subst hzero
    have hone : sealed.nonce = 1 := by
      by_contra hne
      exact hskip 1 (by omega) (by omega) (by simp)
    refine ⟨hone, ?_⟩
    cases fuel with
    | zero => simp [proof_of_work] at h
    | succ fuel =>
      rw [proof_of_work] at h ⊢
      dsimp only at h ⊢
      have hcmp : ∀ s : CString, strncmp s (List.replicate 0 '0') 0 = 0 := fun s => by
        simp [strncmp]
      simpa [hcmp] using h

theorem proof_of_work_least_nonce_witness :
    (0 : Int) = 0 ∧ 2 ≤ 64 ∧
    ∃ sealed : Block,
      proof_of_work sample_digest 2 10
          { index := 1, previous_hash := "0".toList, merkle_root := [], data := "x".toList,
            hash := [], nonce := 0, timestamp := 1700000000 } = some sealed ∧
      sealed.nonce = 2 ∧
      ∀ m : Int, 1 ≤ m → m < sealed.nonce →
        (calculate_hash sample_digest
            { index := 1, previous_hash := "0".toList, merkle_root := [], data := "x".toList,
              hash := [], nonce := m, timestamp := 1700000000 }).take 2 ≠
          List.replicate 2 '0' :=
  have h : proof_of_work sample_digest 2 10
      { index := 1, previous_hash := "0".toList, merkle_root := [], data := "x".toList,
        hash := [], nonce := 0, timestamp := 1700000000 } =
      some { index := 1, previous_hash := "0".toList, merkle_root := [], data := "x".toList,
             hash := "00f3".toList ++ List.replicate 60 '0', nonce := 2,
             timestamp := 1700000000 } := by decide!
  ⟨rfl, by decide, _, h, rfl,
    (proof_of_work_least_nonce sample_digest 2 10 _ _ rfl (by decide) h).2.2.2.1⟩

/-! ## The digested text does not separate its fields -/

/-- The loop of `validar` reads of each block only `index`, `previous_hash`,
`hash` and the recomputed hash. -/
theorem validar_while_congr (SHA256 : CString → List Nat) (b b' : Block)
    (hi : b'.index = b.index) (hp : b'.previous_hash = b.previous_hash)
    (hh : b'.hash = b.hash) (hc : calculate_hash SHA256 b' = calculate_hash SHA256 b)
    (post : List Block) :
    ∀ pre : List Block,
      validar_while SHA256 (pre ++ b' :: post) = validar_while SHA256 (pre ++ b :: post) := by
  intro pre
  induction pre with
  | nil =>
    cases post with
    | nil => rfl
    | cons n post => simp [validar_while, hi, hh, hc]
  | cons p pre ih =>
    cases pre with
    | nil =>
      have ih' : validar_while SHA256 (b' :: post) = validar_while SHA256 (b :: post) := ih
      show validar_while SHA256 (p :: b' :: post) = validar_while SHA256 (p :: b :: post)
      rw [validar_while, validar_while, ih', hp, hi]
    | cons q pre =>
      have ih' : validar_while SHA256 (q :: (pre ++ b' :: post)) =
          validar_while SHA256 (q :: (pre ++ b :: post)) := ih
      show validar_while SHA256 (p :: q :: (pre ++ b' :: post)) =
        validar_while SHA256 (p :: q :: (pre ++ b :: post))
      rw [validar_while, validar_while, ih']

theorem validar_congr (SHA256 : CString → List Nat) (b b' : Block)
    (hi : b'.index = b.index) (hp : b'.previous_hash = b.previous_hash)
    (hh : b'.hash = b.hash) (hc : calculate_hash SHA256 b' = calculate_hash SHA256 b)
    (pre post : List Block) :
    validar SHA256 (pre ++ b' :: post) = validar SHA256 (pre ++ b :: post) := by
  have hw := validar_while_congr SHA256 b b' hi hp hh hc post pre
  cases pre with
  | nil =>
    simp only [List.nil_append] at hw ⊢
    simp only [validar, hp, hw]
  | cons p pre =>
    simp only [List.cons_append] at hw ⊢
    simp only [validar, hw]

/-- C20. The text `calculate_hash` digests is not injective in the fields of
the block: nonce and timestamp are written as adjacent decimal numbers with no
separator, so a block with nonce 1 and timestamp 23 and the block that differs
from it only in having nonce 12 and timestamp 3 give the same text and the
same hash; if the first is sealed so is the second, and `validar` gives the
same report on a chain whichever of the two stands in it. -/
theorem calculate_hash_not_injective (SHA256 : CString → List Nat) (b : Block) :
    ({ b with nonce := 1, timestamp := 23 } : Block) ≠ { b with nonce := 12, timestamp := 3 } ∧
    fmt_d b.index ++ b.previous_hash ++ b.data ++ fmt_d 1 ++ fmt_d 23 ++ b.merkle_root =
      fmt_d b.index ++ b.previous_hash ++ b.data ++ fmt_d 12 ++ fmt_d 3 ++ b.merkle_root ∧
    calculate_hash SHA256 { b with nonce := 1, timestamp := 23 } =
      calculate_hash SHA256 { b with nonce := 12, timestamp := 3 } ∧
    (b.hash = calculate_hash SHA256 { b with nonce := 1, timestamp := 23 } →
      b.hash = calculate_hash SHA256 { b with nonce := 12, timestamp := 3 }) ∧
    ∀ pre post : List Block,
      validar SHA256 (pre ++ { b with nonce := 12, timestamp := 3 } :: post) =
        validar SHA256 (pre ++ { b with nonce := 1, timestamp := 23 } :: post) := by
  have htext : fmt_d b.index ++ b.previous_hash ++ b.data ++ fmt_d 1 ++ fmt_d 23
        ++ b.merkle_root =
      fmt_d b.index ++ b.previous_hash ++ b.data ++ fmt_d 12 ++ fmt_d 3 ++ b.merkle_root := by
    have h1 : fmt_d 1 ++ fmt_d 23 = fmt_d 12 ++ fmt_d 3 := by decide
    simp only [List.append_assoc]
    rw [← List.append_assoc (fmt_d 1), h1, List.append_assoc]
  have hhash : calculate_hash SHA256 { b with nonce := 1, timestamp := 23 } =
      calculate_hash SHA256 { b with nonce := 12, timestamp := 3 } := by
    simp only [calculate_hash, htext]
  refine ⟨?_, htext, hhash, fun h => h.trans hhash, fun pre post => ?_⟩
  · intro h
    have := congrArg Block.nonce h
    simp at this
  · exact validar_congr SHA256 { b with nonce := 1, timestamp := 23 }
      { b with nonce := 12, timestamp := 3 } rfl rfl rfl hhash.symm pre post

end Teste
